import Mathlib

/-!
Verification of the chess engine core (engine.py, evaluation.py, config.py).

The rules engine (the external `chess` library: board representation, legal
move generation, check detection, ...) is out of scope of the specification
and is modelled abstractly: a `Rules` structure collects exactly the queries
the core calls on it, and a `Board` structure (for the evaluator) carries the
piece placement together with oracle fields for the library predicates the
evaluator consults (`is_check`, castling rights, `is_attacked_by`, ...).

Scores use `XInt`, the integers extended with the two infinities, because the
Python code initialises `alpha`, `beta` and the running best values with
`float('-inf')` / `float('inf')` and otherwise works with plain ints.

Two embeddings of the search are given:
* a pure one (`search`, `quiescence_search`, ...) in which evaluation is a
  total function `Pos → Int`; it captures the value semantics of the search
  on runs in which evaluation does not raise, and is compared against the
  unpruned reference expansion `minimax` / `qVal`;
* a stateful, fallible one (`searchE`, `quiescence_searchE`,
  `find_best_moveE`, `iterative_deepening_searchE`) in which evaluation may
  fail (`Pos → Option Int`, modelling the IndexError that
  `evaluate_king_safety` can raise) and the mutable board object is threaded
  explicitly as a current position plus the stack of positions pushed and not
  yet popped (`Brd`); an exception propagates as `Except.error` and, exactly
  as in the Python code (which has no try/finally), skips the pending
  `board.pop()` calls.
-/

/-! ### Basic chess data (shared) -/

/-- A side. `chess.WHITE` / `chess.BLACK`. -/
inductive Color : Type where
  | white : Color
  | black : Color
deriving DecidableEq, Repr

/-- The opposite side (used to model the null-move turn flip). -/
def Color.other : Color → Color
  | Color.white => Color.black
  | Color.black => Color.white

/-- Piece kinds. `chess.PAWN`, ..., `chess.KING`. -/
inductive PieceType : Type where
  | pawn : PieceType
  | knight : PieceType
  | bishop : PieceType
  | rook : PieceType
  | queen : PieceType
  | king : PieceType
deriving DecidableEq, Repr

/-- A piece: type and color, compared componentwise like `chess.Piece`. -/
structure Piece where
  pieceType : PieceType
  color : Color
deriving DecidableEq, Repr

/-- The `piece_values` dict local to `order_moves` (engine.py lines 21-24). -/
def enginePieceValue : PieceType → Int
  | PieceType.pawn => 100
  | PieceType.knight => 320
  | PieceType.bishop => 330
  | PieceType.rook => 500
  | PieceType.queen => 900
  | PieceType.king => 20000

/-! ### Extended integers

`XInt` models the score domain: all scores produced by `evaluate_board` are
ints, but `float('-inf')` / `float('inf')` appear as initial values of
`alpha`, `beta`, `max_eval` and `min_eval`. -/

inductive XInt : Type where
  | negInf : XInt
  | num : Int → XInt
  | posInf : XInt
deriving DecidableEq, Repr

namespace XInt

/-- Boolean comparison on extended integers. -/
def ble : XInt → XInt → Bool
  | negInf, _ => true
  | num _, negInf => false
  | num a, num b => decide (a ≤ b)
  | num _, posInf => true
  | posInf, negInf => false
  | posInf, num _ => false
  | posInf, posInf => true

instance : LE XInt := ⟨fun a b => ble a b = true⟩

instance : LT XInt := ⟨fun a b => a ≤ b ∧ ¬ b ≤ a⟩

instance decLE : DecidableRel (fun (a b : XInt) => a ≤ b) := fun a b =>
  inferInstanceAs (Decidable (ble a b = true))

instance decLT : DecidableRel (fun (a b : XInt) => a < b) := fun a b =>
  inferInstanceAs (Decidable (_ ∧ _))

theorem le_def {a b : XInt} : (a ≤ b) = (ble a b = true) := rfl

theorem lt_def {a b : XInt} : (a < b) = (a ≤ b ∧ ¬ b ≤ a) := rfl

instance : LinearOrder XInt where
  le_refl a := by cases a <;> simp [le_def, ble]
  le_trans a b c := by
    cases a <;> cases b <;> cases c <;> simp [le_def, ble] <;> omega
  le_antisymm a b := by
    cases a <;> cases b <;> simp [le_def, ble] <;> omega
  le_total a b := by cases a <;> cases b <;> simp [le_def, ble] <;> omega
  lt_iff_le_not_le a b := Iff.rfl
  decidableLE := decLE
  decidableLT := decLT

/-- Negation, as applied by the negamax convention in `quiescence_search`. -/
def neg : XInt → XInt
  | negInf => posInf
  | num a => num (-a)
  | posInf => negInf

instance : Neg XInt := ⟨neg⟩

end XInt

open XInt

/-! ### The rules-engine interface

Exactly the queries `engine.py` makes on a `chess.Board` object, with
positions abstract.  `play p m` is the position after `board.push(m)` on
position `p`; `inCheck` is `board.is_check()` (side to move in check). -/

structure Rules (Pos : Type) (Move : Type) where
  over : Pos → Bool
  moves : Pos → List Move
  play : Pos → Move → Pos
  isCapture : Pos → Move → Bool
  givesCheck : Pos → Move → Bool
  inCheck : Pos → Bool
  isCastling : Pos → Move → Bool
  promo : Move → Bool
  fromSq : Move → Nat
  toSq : Move → Nat
  pieceTypeAt : Pos → Nat → Option PieceType

/-! ### Move ordering (engine.py, `order_moves`, lines 10-49) -/

/-- The `move_priority` key function of `order_moves`.  The capture term uses
the occupants of the destination and origin squares and contributes only when
both are present (`if captured_piece and moving_piece`); the check term pushes
the move and asks `board.is_check()` on the resulting position.  The center
squares are E4 = 28, E5 = 36, D4 = 27, D5 = 35. -/
def movePriority {Pos Move : Type} (R : Rules Pos Move) (p : Pos) (m : Move) : Int :=
  (if R.isCapture p m then
    match R.pieceTypeAt p (R.toSq m), R.pieceTypeAt p (R.fromSq m) with
    | some victim, some attacker => enginePieceValue victim * 10 - enginePieceValue attacker
    | _, _ => 0
   else 0)
  + (if R.inCheck (R.play p m) then 50 else 0)
  + (if R.promo m then 800 else 0)
  + (if R.isCastling p m then 60 else 0)
  + (if R.toSq m = 28 ∨ R.toSq m = 36 ∨ R.toSq m = 27 ∨ R.toSq m = 35 then 20 else 0)

/-- `order_moves`: `sorted(moves, key=move_priority, reverse=True)`.  Python's
`sorted` is a stable sort; any stable sort produces the identical output, so
the stable `insertionSort` by descending priority is the same function. -/
def order_moves {Pos Move : Type} (R : Rules Pos Move) (p : Pos) (ms : List Move) : List Move :=
  List.insertionSort (fun a b => movePriority R p b ≤ movePriority R p a) ms

/-! ### Pure search embedding (engine.py, lines 52-168) -/

mutual

/-- Translation of `quiescence_search` (engine.py lines 52-87) with a total
evaluation function `e`.  Note line 71-72 returns `stand_pat` (not `alpha`)
when there is no capture or checking move. -/
def quiescence_search {Pos Move : Type} (R : Rules Pos Move) (e : Pos → Int) (p : Pos)
    (alpha beta : XInt) (depth : Nat) : XInt :=
  if _h : depth > 10 then num (e p)
  else
    let standPat : XInt := num (e p)
    if beta ≤ standPat then beta
    else
      let alpha1 := if alpha < standPat then standPat else alpha
      let qmoves := (R.moves p).filter (fun m => R.isCapture p m || R.givesCheck p m)
      if qmoves.isEmpty then standPat
      else qLoop R e p (order_moves R p qmoves) alpha1 beta depth
termination_by (12 - depth, 1, 0)

/-- The move loop of `quiescence_search` (lines 77-87): raises `alpha`,
returns `beta` on a cutoff, returns the final `alpha` when exhausted. -/
def qLoop {Pos Move : Type} (R : Rules Pos Move) (e : Pos → Int) (p : Pos)
    (ms : List Move) (alpha beta : XInt) (depth : Nat) : XInt :=
  match ms with
  | [] => alpha
  | m :: rest =>
    let score := - quiescence_search R e (R.play p m) (-beta) (-alpha) (depth + 1)
    if beta ≤ score then beta
    else
      let alpha1 := if alpha < score then score else alpha
      qLoop R e p rest alpha1 beta depth
termination_by (11 - depth, 2, ms.length)

end

mutual

/-- Translation of `search` (engine.py lines 90-168): minimax with alpha-beta
pruning; terminal positions and positions without legal moves evaluate
statically, depth 0 routes to quiescence. -/
def search {Pos Move : Type} (R : Rules Pos Move) (e : Pos → Int) (p : Pos)
    (depth : Nat) (alpha beta : XInt) (maximizing : Bool) : XInt :=
  if R.over p then num (e p)
  else if _h : depth = 0 then quiescence_search R e p alpha beta 0
  else
    let ms := R.moves p
    if ms.isEmpty then num (e p)
    else if maximizing then
      maxLoop R e p (order_moves R p ms) (depth - 1) alpha beta negInf
    else
      minLoop R e p (order_moves R p ms) (depth - 1) alpha beta posInf
termination_by (depth, 1, 0)

/-- The maximizing move loop of `search` (lines 120-143): `max_eval` starts at
`-inf`, `alpha` is raised, iteration stops once `beta <= alpha`. -/
def maxLoop {Pos Move : Type} (R : Rules Pos Move) (e : Pos → Int) (p : Pos)
    (ms : List Move) (d : Nat) (alpha beta best : XInt) : XInt :=
  match ms with
  | [] => best
  | m :: rest =>
    let v := search R e (R.play p m) d alpha beta false
    let best1 := max best v
    let alpha1 := max alpha v
    if beta ≤ alpha1 then best1
    else maxLoop R e p rest d alpha1 beta best1
termination_by (d, 2, ms.length)

/-- The minimizing move loop of `search` (lines 145-168). -/
def minLoop {Pos Move : Type} (R : Rules Pos Move) (e : Pos → Int) (p : Pos)
    (ms : List Move) (d : Nat) (alpha beta best : XInt) : XInt :=
  match ms with
  | [] => best
  | m :: rest =>
    let v := search R e (R.play p m) d alpha beta true
    let best1 := min best v
    let beta1 := min beta v
    if beta1 ≤ alpha then best1
    else minLoop R e p rest d alpha beta1 best1
termination_by (d, 2, ms.length)

end

/-! ### Unpruned reference expansion

`qVal` is the window-free quiescence value (stand-pat joined with the negated
values of the capture/check children, same 10-ply cap), and `minimax` the
unpruned minimax expansion of the same game tree with the same leaves, as the
specification's "full minimax expansion over the same tree". -/

/-- Unpruned quiescence value of a position: the stand-pat evaluation joined
with the negated values of the capture/check children, same 10-ply cap as
`quiescence_search`, no window. -/
def qVal {Pos Move : Type} (R : Rules Pos Move) (e : Pos → Int) (p : Pos)
    (depth : Nat) : Int :=
  if _h : depth > 10 then e p
  else
    ((R.moves p).filter (fun m => R.isCapture p m || R.givesCheck p m)).foldl
      (fun a m => max a (- qVal R e (R.play p m) (depth + 1))) (e p)
termination_by 11 - depth

/-- Unpruned minimax value over the same tree as `search`, with the same
structure (terminal and moveless positions evaluate statically, depth 0 is the
unpruned quiescence value) but no alpha-beta window. -/
def minimax {Pos Move : Type} (R : Rules Pos Move) (e : Pos → Int) (p : Pos)
    (depth : Nat) (maximizing : Bool) : Int :=
  if R.over p then e p
  else if _h : depth = 0 then qVal R e p 0
  else
    match R.moves p with
    | [] => e p
    | m :: rest =>
      rest.foldl
        (fun acc m2 =>
          if maximizing then max acc (minimax R e (R.play p m2) (depth - 1) (!maximizing))
          else min acc (minimax R e (R.play p m2) (depth - 1) (!maximizing)))
        (minimax R e (R.play p m) (depth - 1) (!maximizing))
termination_by depth

/-! ### Stateful, fallible embedding

The Python board is a single mutable object; `Brd` models it as the current
position plus the stack of positions that have been pushed and not yet
popped.  Evaluation may raise (`e : Pos → Option Int`, `none` modelling the
IndexError raised by the king-shield probe for a king on its far back rank);
an error propagates and, as in the source, the pending `pop` calls are
skipped, so the returned `Brd` exposes the corrupted state. -/

structure Brd (Pos : Type) where
  cur : Pos
  hist : List Pos
deriving DecidableEq, Repr

/-- `board.push(m)`. -/
def pushB {Pos Move : Type} (R : Rules Pos Move) (b : Brd Pos) (m : Move) : Brd Pos :=
  ⟨R.play b.cur m, b.cur :: b.hist⟩

/-- `board.pop()` (never called on an empty stack by the engine). -/
def popB {Pos : Type} (b : Brd Pos) : Brd Pos :=
  match b.hist with
  | [] => b
  | q :: t => ⟨q, t⟩

mutual

/-- `quiescence_search` with fallible evaluation and explicit board state. -/
def quiescence_searchE {Pos Move : Type} (R : Rules Pos Move) (e : Pos → Option Int)
    (b : Brd Pos) (alpha beta : XInt) (depth : Nat) : Except Unit XInt × Brd Pos :=
  if _h : depth > 10 then
    match e b.cur with
    | none => (Except.error (), b)
    | some v => (Except.ok (num v), b)
  else
    match e b.cur with
    | none => (Except.error (), b)
    | some sp =>
      let standPat := num sp
      if beta ≤ standPat then (Except.ok beta, b)
      else
        let alpha1 := if alpha < standPat then standPat else alpha
        let qmoves := (R.moves b.cur).filter
          (fun m => R.isCapture b.cur m || R.givesCheck b.cur m)
        if qmoves.isEmpty then (Except.ok standPat, b)
        else qLoopE R e b (order_moves R b.cur qmoves) alpha1 beta depth
termination_by (12 - depth, 1, 0)

/-- Move loop of `quiescence_search`, stateful: `push`, recurse, `pop`; on an
error the `pop` is skipped and the error propagates. -/
def qLoopE {Pos Move : Type} (R : Rules Pos Move) (e : Pos → Option Int)
    (b : Brd Pos) (ms : List Move) (alpha beta : XInt) (depth : Nat) :
    Except Unit XInt × Brd Pos :=
  match ms with
  | [] => (Except.ok alpha, b)
  | m :: rest =>
    match quiescence_searchE R e (pushB R b m) (-beta) (-alpha) (depth + 1) with
    | (Except.error u, b1) => (Except.error u, b1)
    | (Except.ok sub, b1) =>
      let score := - sub
      let b2 := popB b1
      if beta ≤ score then (Except.ok beta, b2)
      else
        let alpha1 := if alpha < score then score else alpha
        qLoopE R e b2 rest alpha1 beta depth
termination_by (11 - depth, 2, ms.length)

end

mutual

/-- `search` with fallible evaluation and explicit board state. -/
def searchE {Pos Move : Type} (R : Rules Pos Move) (e : Pos → Option Int)
    (b : Brd Pos) (depth : Nat) (alpha beta : XInt) (maximizing : Bool) :
    Except Unit XInt × Brd Pos :=
  if R.over b.cur then
    match e b.cur with
    | none => (Except.error (), b)
    | some v => (Except.ok (num v), b)
  else if _h : depth = 0 then quiescence_searchE R e b alpha beta 0
  else
    let ms := R.moves b.cur
    if ms.isEmpty then
      match e b.cur with
      | none => (Except.error (), b)
      | some v => (Except.ok (num v), b)
    else if maximizing then
      maxLoopE R e b (order_moves R b.cur ms) (depth - 1) alpha beta negInf
    else
      minLoopE R e b (order_moves R b.cur ms) (depth - 1) alpha beta posInf
termination_by (depth, 1, 0)

/-- Maximizing loop of `search`, stateful; on an error from the recursive call
the pending `pop` is skipped. -/
def maxLoopE {Pos Move : Type} (R : Rules Pos Move) (e : Pos → Option Int)
    (b : Brd Pos) (ms : List Move) (d : Nat) (alpha beta best : XInt) :
    Except Unit XInt × Brd Pos :=
  match ms with
  | [] => (Except.ok best, b)
  | m :: rest =>
    match searchE R e (pushB R b m) d alpha beta false with
    | (Except.error u, b1) => (Except.error u, b1)
    | (Except.ok v, b1) =>
      let b2 := popB b1
      let best1 := max best v
      let alpha1 := max alpha v
      if beta ≤ alpha1 then (Except.ok best1, b2)
      else maxLoopE R e b2 rest d alpha1 beta best1
termination_by (d, 2, ms.length)

/-- Minimizing loop of `search`, stateful. -/
def minLoopE {Pos Move : Type} (R : Rules Pos Move) (e : Pos → Option Int)
    (b : Brd Pos) (ms : List Move) (d : Nat) (alpha beta best : XInt) :
    Except Unit XInt × Brd Pos :=
  match ms with
  | [] => (Except.ok best, b)
  | m :: rest =>
    match searchE R e (pushB R b m) d alpha beta true with
    | (Except.error u, b1) => (Except.error u, b1)
    | (Except.ok v, b1) =>
      let b2 := popB b1
      let best1 := min best v
      let beta1 := min beta v
      if beta1 ≤ alpha then (Except.ok best1, b2)
      else minLoopE R e b2 rest d alpha beta1 best1
termination_by (d, 2, ms.length)

end

/-- Root move loop of `find_best_move` (engine.py lines 222-239): strict
improvement updates the best move, `alpha` is raised, there is no cutoff test
at the root. -/
def fbmLoopE {Pos Move : Type} (R : Rules Pos Move) (e : Pos → Option Int)
    (b : Brd Pos) (ms : List Move) (depth : Nat) (maxEval alpha beta : XInt)
    (best : Option Move) : Except Unit (Option Move) × Brd Pos :=
  match ms with
  | [] => (Except.ok best, b)
  | m :: rest =>
    match searchE R e (pushB R b m) (depth - 1) alpha beta false with
    | (Except.error u, b1) => (Except.error u, b1)
    | (Except.ok v, b1) =>
      let b2 := popB b1
      let next := if maxEval < v then (v, some m) else (maxEval, best)
      fbmLoopE R e b2 rest depth next.1 (max alpha v) beta next.2

/-- Translation of `find_best_move` (engine.py lines 195-241): returns `none`
for a position without legal moves, otherwise scans the ordered moves.  (The
Python function passes `depth - 1` on ints; the embedding uses saturating
`Nat` subtraction, which agrees for the `depth >= 1` calls issued by
`iterative_deepening_search`.) -/
def find_best_moveE {Pos Move : Type} (R : Rules Pos Move) (e : Pos → Option Int)
    (b : Brd Pos) (depth : Nat) : Except Unit (Option Move) × Brd Pos :=
  let ms := R.moves b.cur
  if ms.isEmpty then (Except.ok none, b)
  else fbmLoopE R e b (order_moves R b.cur ms) depth negInf negInf posInf none

/-- The deepening loop of `iterative_deepening_search` (engine.py lines
179-190).  Wall-clock time is outside the embedding: `timeLimit` records
whether a limit was supplied and the oracle `timeUp d` is the outcome of the
`elapsed > time_limit` test at the head of iteration `d`.  A failing
`find_best_move` is caught (`except: break`) and the loop stops, keeping the
board exactly as the failure left it. -/
def idLoopE {Pos Move : Type} (R : Rules Pos Move) (e : Pos → Option Int)
    (timeLimit : Bool) (timeUp : Nat → Bool) (b : Brd Pos)
    (depths : List Nat) (best : Option Move) : Option Move × Brd Pos :=
  match depths with
  | [] => (best, b)
  | d :: rest =>
    if timeLimit && timeUp d then (best, b)
    else
      match find_best_moveE R e b d with
      | (Except.error _, b1) => (best, b1)
      | (Except.ok cur, b1) =>
        let best1 := match cur with
          | some m => some m
          | none => best
        idLoopE R e timeLimit timeUp b1 rest best1

/-- Translation of `iterative_deepening_search` (engine.py lines 171-192).
The final statement `return best_move or list(board.legal_moves)[0]` indexes
the legal moves of the board in its current (possibly corrupted) state; on an
empty list this raises IndexError, modelled as `Except.error`. -/
def iterative_deepening_searchE {Pos Move : Type} (R : Rules Pos Move)
    (e : Pos → Option Int) (b : Brd Pos) (maxDepth : Nat)
    (timeLimit : Bool) (timeUp : Nat → Bool) : Except Unit Move × Brd Pos :=
  match idLoopE R e timeLimit timeUp b (List.range' 1 maxDepth) none with
  | (some m, b1) => (Except.ok m, b1)
  | (none, b1) =>
    match R.moves b1.cur with
    | [] => (Except.error (), b1)
    | m :: _ => (Except.ok m, b1)

/-! ### The evaluator (evaluation.py, config.py)

`Board` models the `chess.Board` state the evaluator reads: the piece
placement and the side to move concretely, and the rules-engine predicates
the evaluator calls as oracle fields (`legalCount c` is
`len(list(board.legal_moves))` with `c` to move — the null-move push used by
`evaluate_mobility` toggles only the side to move; `inCheckColor c` is
whether the king of `c` is attacked, so `board.is_check()` is
`inCheckColor turn`). -/

structure Board where
  pieceAt : Fin 64 → Option Piece
  turn : Color
  legalCount : Color → Nat
  inCheckColor : Color → Bool
  kingsideRights : Color → Bool
  queensideRights : Color → Bool
  insufficientMaterial : Bool
  repetition : Bool
  attackedBy : Color → Fin 64 → Bool

/-- `board.is_check()`: the side to move is in check. -/
def Board.isCheck (b : Board) : Bool := b.inCheckColor b.turn

/-- `board.is_checkmate()`: in check and no legal move. -/
def Board.isCheckmate (b : Board) : Bool := b.isCheck && decide (b.legalCount b.turn = 0)

/-- `board.is_stalemate()`: not in check and no legal move. -/
def Board.isStalemate (b : Board) : Bool := !b.isCheck && decide (b.legalCount b.turn = 0)

/-- The library's `board.piece_at(square)` on an arbitrary int index, as the
Python implementation behaves: `BB_SQUARES[square]` accepts 0..63, wraps
Python-style for -64..-1, and raises IndexError (here `none`) otherwise. -/
def libPieceAt (b : Board) (sq : Int) : Option (Option Piece) :=
  if h : 0 ≤ sq ∧ sq < 64 then some (b.pieceAt ⟨sq.toNat, by omega⟩)
  else if h2 : -64 ≤ sq ∧ sq < 0 then some (b.pieceAt ⟨(sq + 64).toNat, by omega⟩)
  else none

/-- Total square access for loops whose indices are in range by construction
(ranks and files both bounded by the source's `range` loops and guards). -/
def pieceAtN (b : Board) (sq : Nat) : Option Piece :=
  if h : sq < 64 then b.pieceAt ⟨sq, h⟩ else none

/-- `len(board.pieces(pt, c))`. -/
def countPieces (b : Board) (pt : PieceType) (c : Color) : Nat :=
  ((List.finRange 64).filter (fun sq => b.pieceAt sq = some ⟨pt, c⟩)).length

/-- Piece values from config.py (lines 7-12). -/
def PAWN_VALUE : Int := 100
def KNIGHT_VALUE : Int := 320
def BISHOP_VALUE : Int := 330
def ROOK_VALUE : Int := 500
def QUEEN_VALUE : Int := 900
def KING_VALUE : Int := 20000

/-- `count_material` (evaluation.py lines 15-23): king excluded. -/
def count_material (b : Board) (c : Color) : Int :=
  (countPieces b PieceType.pawn c : Int) * PAWN_VALUE
  + (countPieces b PieceType.knight c : Int) * KNIGHT_VALUE
  + (countPieces b PieceType.bishop c : Int) * BISHOP_VALUE
  + (countPieces b PieceType.rook c : Int) * ROOK_VALUE
  + (countPieces b PieceType.queen c : Int) * QUEEN_VALUE

/-- `PAWN_PST` (config.py). -/
def PAWN_PST : List Int :=
  [0,  0,  0,  0,  0,  0,  0,  0,
   50, 50, 50, 50, 50, 50, 50, 50,
   10, 10, 20, 30, 30, 20, 10, 10,
   5,  5, 10, 25, 25, 10,  5,  5,
   0,  0,  0, 20, 20,  0,  0,  0,
   5, -5,-10,  0,  0,-10, -5,  5,
   5, 10, 10,-20,-20, 10, 10,  5,
   0,  0,  0,  0,  0,  0,  0,  0]

/-- `KNIGHT_PST` (config.py). -/
def KNIGHT_PST : List Int :=
  [-50,-40,-30,-30,-30,-30,-40,-50,
   -40,-20,  0,  0,  0,  0,-20,-40,
   -30,  0, 10, 15, 15, 10,  0,-30,
   -30,  5, 15, 20, 20, 15,  5,-30,
   -30,  0, 15, 20, 20, 15,  0,-30,
   -30,  5, 10, 15, 15, 10,  5,-30,
   -40,-20,  0,  5,  5,  0,-20,-40,
   -50,-40,-30,-30,-30,-30,-40,-50]

/-- `BISHOP_PST` (config.py). -/
def BISHOP_PST : List Int :=
  [-20,-10,-10,-10,-10,-10,-10,-20,
   -10,  0,  0,  0,  0,  0,  0,-10,
   -10,  0,  5, 10, 10,  5,  0,-10,
   -10,  5,  5, 10, 10,  5,  5,-10,
   -10,  0, 10, 10, 10, 10,  0,-10,
   -10, 10, 10, 10, 10, 10, 10,-10,
   -10,  5,  0,  0,  0,  0,  5,-10,
   -20,-10,-10,-10,-10,-10,-10,-20]

/-- `ROOK_PST` (config.py). -/
def ROOK_PST : List Int :=
  [0,  0,  0,  0,  0,  0,  0,  0,
   5, 10, 10, 10, 10, 10, 10,  5,
   -5,  0,  0,  0,  0,  0,  0, -5,
   -5,  0,  0,  0,  0,  0,  0, -5,
   -5,  0,  0,  0,  0,  0,  0, -5,
   -5,  0,  0,  0,  0,  0,  0, -5,
   -5,  0,  0,  0,  0,  0,  0, -5,
   0,  0,  0,  5,  5,  0,  0,  0]

/-- `QUEEN_PST` (config.py). -/
def QUEEN_PST : List Int :=
  [-20,-10,-10, -5, -5,-10,-10,-20,
   -10,  0,  0,  0,  0,  0,  0,-10,
   -10,  0,  5,  5,  5,  5,  0,-10,
   -5,  0,  5,  5,  5,  5,  0, -5,
   0,  0,  5,  5,  5,  5,  0, -5,
   -10,  5,  5,  5,  5,  5,  0,-10,
   -10,  0,  5,  0,  0,  0,  0,-10,
   -20,-10,-10, -5, -5,-10,-10,-20]

/-- `KING_PST` (config.py). -/
def KING_PST : List Int :=
  [-30,-40,-40,-50,-50,-40,-40,-30,
   -30,-40,-40,-50,-50,-40,-40,-30,
   -30,-40,-40,-50,-50,-40,-40,-30,
   -30,-40,-40,-50,-50,-40,-40,-30,
   -20,-30,-30,-40,-40,-30,-30,-20,
   -10,-20,-20,-20,-20,-20,-20,-10,
   20, 20,  0,  0,  0,  0, 20, 20,
   20, 30, 10,  0,  0, 10, 30, 20]

/-- `get_black_pst` (config.py lines 91-97): vertical mirror, rank-reversed. -/
def get_black_pst (whitePst : List Int) : List Int :=
  ((List.range 8).reverse).flatMap
    (fun r => (List.range 8).map (fun f => whitePst.getD (r * 8 + f) 0))

def PAWN_PST_BLACK : List Int := get_black_pst PAWN_PST
def KNIGHT_PST_BLACK : List Int := get_black_pst KNIGHT_PST
def BISHOP_PST_BLACK : List Int := get_black_pst BISHOP_PST
def ROOK_PST_BLACK : List Int := get_black_pst ROOK_PST
def QUEEN_PST_BLACK : List Int := get_black_pst QUEEN_PST
def KING_PST_BLACK : List Int := get_black_pst KING_PST

/-- The `white_psts` dict (evaluation.py lines 191-198). -/
def whitePst : PieceType → List Int
  | PieceType.pawn => PAWN_PST
  | PieceType.knight => KNIGHT_PST
  | PieceType.bishop => BISHOP_PST
  | PieceType.rook => ROOK_PST
  | PieceType.queen => QUEEN_PST
  | PieceType.king => KING_PST

/-- The `black_psts` dict (evaluation.py lines 200-207). -/
def blackPst : PieceType → List Int
  | PieceType.pawn => PAWN_PST_BLACK
  | PieceType.knight => KNIGHT_PST_BLACK
  | PieceType.bishop => BISHOP_PST_BLACK
  | PieceType.rook => ROOK_PST_BLACK
  | PieceType.queen => QUEEN_PST_BLACK
  | PieceType.king => KING_PST_BLACK

/-- The piece-square loop of `evaluate_board` (lines 210-216): one pass over
the 64 squares accumulating the white and black positional sums. -/
def positionalScores (b : Board) : Int × Int :=
  (List.finRange 64).foldl
    (fun acc sq =>
      match b.pieceAt sq with
      | none => acc
      | some pc =>
        match pc.color with
        | Color.white => (acc.1 + (whitePst pc.pieceType).getD sq.val 0, acc.2)
        | Color.black => (acc.1, acc.2 + (blackPst pc.pieceType).getD sq.val 0))
    (0, 0)

/-- `evaluate_mobility` (evaluation.py lines 26-35): the null-move push
toggles only the side to move, so the opponent's count is `legalCount` of the
other color. -/
def evaluate_mobility (b : Board) : Int :=
  ((b.legalCount b.turn : Int) - (b.legalCount b.turn.other : Int)) * 10

/-- `board.king(color)`: the square of the king of that color, if any. -/
def Board.kingSquare (b : Board) (c : Color) : Option (Fin 64) :=
  (List.finRange 64).find? (fun sq => b.pieceAt sq = some ⟨PieceType.king, c⟩)

/-- The square indices probed by the pawn-shield loop of
`evaluate_king_safety` (evaluation.py lines 64-78): files
`king_file-1 .. king_file+1` guarded to 0..7, at rank `king_rank+1` for White
and `king_rank-1` for Black, with `chess.square(f, r) = r * 8 + f` and no
rank guard. -/
def shieldSquares (kingFile kingRank : Int) (c : Color) : List Int :=
  [(-1 : Int), 0, 1].filterMap (fun off =>
    let shieldFile := kingFile + off
    if 0 ≤ shieldFile ∧ shieldFile ≤ 7 then
      some ((if c = Color.white then kingRank + 1 else kingRank - 1) * 8 + shieldFile)
    else none)

/-- The pawn-shield score: +30 per probed square holding a same-colored pawn;
`none` when a probe raises IndexError. -/
def pawnShieldScore (b : Board) (c : Color) (kingFile kingRank : Int) : Option Int :=
  (shieldSquares kingFile kingRank c).foldlM
    (fun acc sq => do
      let pc ← libPieceAt b sq
      pure (if pc = some ⟨PieceType.pawn, c⟩ then acc + 30 else acc))
    0

/-- Translation of `evaluate_king_safety` (evaluation.py lines 38-86).  Note
that the White and Black branches of the castling bonus are identical in the
source, and that the check penalty tests `board.is_check()` — the side to
move — not the `color` argument. -/
def evaluate_king_safety (b : Board) (c : Color) : Option Int :=
  match b.kingSquare c with
  | none => some (-999999)
  | some ksq => do
    let castleScore : Int :=
      if b.kingsideRights c || b.queensideRights c then
        if c = Color.white then
          (if b.kingsideRights c then 50 else 0) + (if b.queensideRights c then 30 else 0)
        else
          (if b.kingsideRights c then 50 else 0) + (if b.queensideRights c then 30 else 0)
      else 0
    let kingFile : Int := (ksq.val : Int) % 8
    let kingRank : Int := (ksq.val : Int) / 8
    let shield ← pawnShieldScore b c kingFile kingRank
    let checkPenalty : Int := if b.isCheck then -50 else 0
    pure (castleScore + shield + checkPenalty)

/-- Squares holding a pawn of the given color. -/
def pawnSquares (b : Board) (c : Color) : List (Fin 64) :=
  (List.finRange 64).filter (fun sq => b.pieceAt sq = some ⟨PieceType.pawn, c⟩)

/-- Pawns per file (evaluation.py lines 98-100). -/
def fileCounts (b : Board) (c : Color) : List Nat :=
  (List.range 8).map (fun f => ((pawnSquares b c).filter (fun sq => sq.val % 8 = f)).length)

/-- The passed-pawn test of `evaluate_pawn_structure` (lines 119-145): no
opposing pawn on the same or an adjacent file on any rank strictly ahead.
The rank indices come from `range` and the file from a 0..7 guard, so every
probed square is in range. -/
def isPassedPawn (b : Board) (c : Color) (sq : Fin 64) : Bool :=
  let f : Int := (sq.val : Int) % 8
  let r : Nat := sq.val / 8
  let ranks : List Nat :=
    match c with
    | Color.white => List.range' (r + 1) (8 - (r + 1))
    | Color.black => List.range r
  ranks.all (fun cr =>
    [f - 1, f, f + 1].all (fun cf =>
      if 0 ≤ cf ∧ cf ≤ 7 then
        decide (pieceAtN b (cr * 8 + cf.toNat) ≠ some ⟨PieceType.pawn, c.other⟩)
      else true))

/-- One color's contribution in `evaluate_pawn_structure` (lines 93-153):
doubled, isolated and passed pawns, signed by the ±1 multiplier. -/
def pawnStructureFor (b : Board) (c : Color) : Int :=
  let mult : Int := if c = Color.white then 1 else -1
  let files := fileCounts b c
  let doubled := files.foldl
    (fun acc cnt => if cnt > 1 then acc + mult * (((cnt : Int) - 1) * (-20)) else acc) 0
  let isolated := (List.range 8).foldl
    (fun acc fi =>
      if files.getD fi 0 > 0 then
        let hasNeighbor :=
          (decide (fi > 0) && decide (files.getD (fi - 1) 0 > 0))
          || (decide (fi < 7) && decide (files.getD (fi + 1) 0 > 0))
        if hasNeighbor then acc else acc + mult * (-15)
      else acc) 0
  let passed := (pawnSquares b c).foldl
    (fun acc sq =>
      if isPassedPawn b c sq then
        let bonus : Int :=
          if c = Color.white then ((sq.val / 8 : Nat) : Int) - 1
          else 6 - ((sq.val / 8 : Nat) : Int)
        acc + mult * (bonus * 20)
      else acc) 0
  doubled + isolated + passed

/-- `evaluate_pawn_structure` (evaluation.py lines 89-155). -/
def evaluate_pawn_structure (b : Board) : Int :=
  pawnStructureFor b Color.white + pawnStructureFor b Color.black

/-- The tactical bonuses of `evaluate_board` (lines 234-251): center control
and the bishop pair. -/
def tacticalBonus (b : Board) : Int :=
  let centerScore := [(28 : Fin 64), 36, 27, 35].foldl
    (fun acc sq =>
      (acc + (if b.attackedBy Color.white sq then 10 else 0))
      - (if b.attackedBy Color.black sq then 10 else 0)) 0
  let bishopScore :=
    (if countPieces b PieceType.bishop Color.white ≥ 2 then 30 else 0)
    - (if countPieces b PieceType.bishop Color.black ≥ 2 then 30 else 0)
  centerScore + bishopScore

/-- Translation of `evaluate_board` (evaluation.py lines 158-267).  The
mobility term's `try/except` cannot fire in the model (the modelled queries
are total); the king-safety terms can raise IndexError, which propagates out
of `evaluate_board` (there is no handler around them), modelled by `none`. -/
def evaluate_board (b : Board) : Option Int :=
  if b.isCheckmate then some (-999999)
  else if b.isStalemate || b.insufficientMaterial || b.repetition then some 0
  else do
    let materialBalance := count_material b Color.white - count_material b Color.black
    let pos := positionalScores b
    let positionalBalance := pos.1 - pos.2
    let mobilityScore := evaluate_mobility b
    let wks ← evaluate_king_safety b Color.white
    let bks ← evaluate_king_safety b Color.black
    let kingSafetyBalance := wks - bks
    let pawnStructureScore := evaluate_pawn_structure b
    let tactical := tacticalBonus b
    let evaluation := materialBalance + positionalBalance + mobilityScore
      + kingSafetyBalance + pawnStructureScore + tactical
    pure (if b.turn = Color.white then evaluation else -evaluation)

/-! ### Window specifications for the pruning-correctness proof

The classical alpha-beta invariant: a result at or below `alpha` certifies
that the unpruned value is at most that bound, a result at or above `beta`
certifies at least `beta`, and a result strictly inside the window equals the
unpruned value. -/

/-- Window specification of `quiescence_search` against `qVal`. -/
def QS {Pos Move : Type} (R : Rules Pos Move) (e : Pos → Int) (depth : Nat) : Prop :=
  ∀ (p : Pos) (alpha beta : XInt), alpha < beta →
    (num (qVal R e p depth) ≤ alpha → quiescence_search R e p alpha beta depth ≤ alpha) ∧
    (beta ≤ num (qVal R e p depth) → beta ≤ quiescence_search R e p alpha beta depth) ∧
    (alpha < num (qVal R e p depth) → num (qVal R e p depth) < beta →
      quiescence_search R e p alpha beta depth = num (qVal R e p depth))

/-- Window specification of `search` against `minimax`. -/
def SS {Pos Move : Type} (R : Rules Pos Move) (e : Pos → Int) (depth : Nat) : Prop :=
  ∀ (p : Pos) (alpha beta : XInt) (maximizing : Bool), alpha < beta →
    (num (minimax R e p depth maximizing) ≤ alpha →
      search R e p depth alpha beta maximizing ≤ alpha) ∧
    (beta ≤ num (minimax R e p depth maximizing) →
      beta ≤ search R e p depth alpha beta maximizing) ∧
    (alpha < num (minimax R e p depth maximizing) →
      num (minimax R e p depth maximizing) < beta →
      search R e p depth alpha beta maximizing = num (minimax R e p depth maximizing))

/-! ### Concrete test structures

Small explicit instances of the abstract interfaces, used to evaluate the
embedded functions at concrete inputs. -/

/-- A three-position game: position 0 has two moves leading to the leaf
positions 1 (value 0) and 2 (value 10); the leaves have no moves. -/
def RA : Rules Nat Nat where
  over := fun _ => false
  moves := fun p => if p = 0 then [10, 11] else []
  play := fun _ m => m - 9
  isCapture := fun _ _ => false
  givesCheck := fun _ _ => false
  inCheck := fun _ => false
  isCastling := fun _ _ => false
  promo := fun _ => false
  fromSq := fun _ => 0
  toSq := fun _ => 0
  pieceTypeAt := fun _ _ => none

/-- Evaluation for `RA`: leaf 1 is worth 0, leaf 2 is worth 10. -/
def eA : Nat → Int := fun p => if p = 1 then 0 else 10

/-- A game for the stateful embedding: position 0 has the single move 0 to
position 1, position 1 has the single move 1, position 2 is terminal with no
moves. -/
def RB : Rules Nat Nat where
  over := fun p => decide (p = 2)
  moves := fun p => if p = 0 then [0] else if p = 1 then [1] else []
  play := fun _ m => m + 1
  isCapture := fun _ _ => false
  givesCheck := fun _ _ => false
  inCheck := fun _ => false
  isCastling := fun _ _ => false
  promo := fun _ => false
  fromSq := fun _ => 0
  toSq := fun _ => 0
  pieceTypeAt := fun _ _ => none

/-- Fallible evaluation for `RB`: evaluating position 1 raises (as
`evaluate_board` does for a position with the white king on the 8th rank). -/
def eB : Nat → Option Int := fun p => if p = 1 then none else some 0

/-- A position with two legal moves: move 5 is an en-passant-style capture
(destination square 0 empty, mover a pawn on square 1), move 6 a quiet move
to the center square 28. -/
def RC7 : Rules Nat Nat where
  over := fun _ => false
  moves := fun p => if p = 0 then [5, 6] else []
  play := fun p m => p + m
  isCapture := fun _ m => decide (m = 5)
  givesCheck := fun _ _ => false
  inCheck := fun _ => false
  isCastling := fun _ _ => false
  promo := fun _ => false
  fromSq := fun _ => 1
  toSq := fun m => if m = 6 then 28 else 0
  pieceTypeAt := fun _ sq => if sq = 1 then some PieceType.pawn else none

/-- Piece placement from an association list of (square, piece) pairs. -/
def placeAt (l : List (Nat × Piece)) : Fin 64 → Option Piece :=
  fun sq => (l.find? (fun pr => pr.1 == sq.val)).map (fun pr => pr.2)

/-- White Ka1, Rh1 against Black Kh8, Black to move and in check from the
rook.  Castling rights gone, no draws pending. -/
def bC6 : Board where
  pieceAt := placeAt
    [(0, ⟨PieceType.king, Color.white⟩), (7, ⟨PieceType.rook, Color.white⟩),
     (63, ⟨PieceType.king, Color.black⟩)]
  turn := Color.black
  legalCount := fun _ => 2
  inCheckColor := fun c => decide (c = Color.black)
  kingsideRights := fun _ => false
  queensideRights := fun _ => false
  insufficientMaterial := false
  repetition := false
  attackedBy := fun _ _ => false

/-- Checkmate: Black Kh8, White Qg7 guarded by White Kf6, Black to move. -/
def bC8mate : Board where
  pieceAt := placeAt
    [(63, ⟨PieceType.king, Color.black⟩), (54, ⟨PieceType.queen, Color.white⟩),
     (45, ⟨PieceType.king, Color.white⟩)]
  turn := Color.black
  legalCount := fun c => if c = Color.black then 0 else 30
  inCheckColor := fun c => decide (c = Color.black)
  kingsideRights := fun _ => false
  queensideRights := fun _ => false
  insufficientMaterial := false
  repetition := false
  attackedBy := fun _ _ => false

/-- Stalemate: Black Kh8, White Qg6 and Ka1, Black to move, not in check, no
legal move. -/
def bC8stale : Board where
  pieceAt := placeAt
    [(63, ⟨PieceType.king, Color.black⟩), (46, ⟨PieceType.queen, Color.white⟩),
     (0, ⟨PieceType.king, Color.white⟩)]
  turn := Color.black
  legalCount := fun c => if c = Color.black then 0 else 35
  inCheckColor := fun _ => false
  kingsideRights := fun _ => false
  queensideRights := fun _ => false
  insufficientMaterial := false
  repetition := false
  attackedBy := fun _ _ => false

/-- A legal quiet position with the white king on its far back rank: White
Kh8 and Pb2 against Black Ka1, White to move, nobody in check. -/
def bC10 : Board where
  pieceAt := placeAt
    [(63, ⟨PieceType.king, Color.white⟩), (9, ⟨PieceType.pawn, Color.white⟩),
     (0, ⟨PieceType.king, Color.black⟩)]
  turn := Color.white
  legalCount := fun _ => 3
  inCheckColor := fun _ => false
  kingsideRights := fun _ => false
  queensideRights := fun _ => false
  insufficientMaterial := false
  repetition := false
  attackedBy := fun _ _ => false

/-! ### Order lemmas for `XInt` -/

namespace XInt

@[simp] theorem num_le_num {a b : Int} : num a ≤ num b ↔ a ≤ b := by
  simp [le_def, ble]

@[simp] theorem le_posInf (a : XInt) : a ≤ posInf := by
  cases a <;> simp [le_def, ble]

@[simp] theorem negInf_le (a : XInt) : negInf ≤ a := by
  cases a <;> simp [le_def, ble]

@[simp] theorem not_posInf_le_num (a : Int) : ¬ (posInf ≤ num a) := by
  simp [le_def, ble]

@[simp] theorem not_num_le_negInf (a : Int) : ¬ (num a ≤ negInf) := by
  simp [le_def, ble]

@[simp] theorem not_posInf_le_negInf : ¬ (posInf ≤ (negInf : XInt)) := by
  simp [le_def, ble]

@[simp] theorem num_lt_num {a b : Int} : num a < num b ↔ a < b := by
  rw [lt_def]
  simp [le_def, ble]
  omega

@[simp] theorem negInf_lt_num (a : Int) : negInf < num a := by
  rw [lt_def]
  simp [le_def, ble]

@[simp] theorem num_lt_posInf (a : Int) : num a < posInf := by
  rw [lt_def]
  simp [le_def, ble]

@[simp] theorem negInf_lt_posInf : negInf < posInf := by
  rw [lt_def]
  simp [le_def, ble]

@[simp] theorem not_lt_negInf (a : XInt) : ¬ (a < negInf) := by
  rw [lt_def]
  cases a <;> simp [le_def, ble]

@[simp] theorem not_posInf_lt (a : XInt) : ¬ (posInf < a) := by
  rw [lt_def]
  cases a <;> simp [le_def, ble]

@[simp] theorem neg_num (a : Int) : -(num a) = num (-a) := rfl
@[simp] theorem neg_negInf : -negInf = posInf := rfl
@[simp] theorem neg_posInf : -posInf = negInf := rfl

@[simp] theorem neg_neg_x (a : XInt) : - - a = a := by
  cases a <;> simp

@[simp] theorem neg_le_neg_iff {a b : XInt} : -a ≤ -b ↔ b ≤ a := by
  cases a <;> cases b <;> simp [le_def, ble] <;> omega

@[simp] theorem neg_lt_neg_iff {a b : XInt} : -a < -b ↔ b < a := by
  rw [lt_def, lt_def]
  simp [neg_le_neg_iff]

end XInt

/-- The source's `if a < s then s else a` update is the maximum. -/
theorem ite_lt_eq_max {α : Type} [LinearOrder α] (a b : α) [Decidable (a < b)] :
    (if a < b then b else a) = max a b := by
  rcases le_or_lt b a with h | h
  · rw [if_neg (not_lt.mpr h), max_eq_left h]
  · rw [if_pos h, max_eq_right h.le]

/-! ### Folded maxima and minima -/

theorem foldl_max_le_iff {α β : Type} [LinearOrder α] (f : β → α) (ms : List β) (acc x : α) :
    ms.foldl (fun a m => max a (f m)) acc ≤ x ↔ acc ≤ x ∧ ∀ m ∈ ms, f m ≤ x := by
  induction ms generalizing acc with
  | nil => simp
  | cons m rest ih =>
    simp only [List.foldl_cons, ih, max_le_iff, List.mem_cons]
    constructor
    · rintro ⟨⟨h1, h2⟩, h3⟩
      refine ⟨h1, fun m' hm' => ?_⟩
      rcases hm' with rfl | hm'
      · exact h2
      · exact h3 m' hm'
    · rintro ⟨h1, h2⟩
      exact ⟨⟨h1, h2 m (Or.inl rfl)⟩, fun m' hm' => h2 m' (Or.inr hm')⟩

theorem foldl_max_bounds {α β : Type} [LinearOrder α] (f : β → α) (ms : List β) (acc : α) :
    acc ≤ ms.foldl (fun a m => max a (f m)) acc ∧
      ∀ m ∈ ms, f m ≤ ms.foldl (fun a m => max a (f m)) acc :=
  (foldl_max_le_iff f ms acc _).mp le_rfl

theorem foldl_max_eq_init_or_mem {α β : Type} [LinearOrder α] (f : β → α) (ms : List β)
    (acc : α) :
    ms.foldl (fun a m => max a (f m)) acc = acc ∨
      ∃ m ∈ ms, ms.foldl (fun a m => max a (f m)) acc = f m := by
  induction ms generalizing acc with
  | nil => exact Or.inl rfl
  | cons m rest ih =>
    simp only [List.foldl_cons]
    rcases ih (max acc (f m)) with h | ⟨m', hm', h⟩
    · rcases max_choice acc (f m) with hc | hc
      · exact Or.inl (h.trans hc)
      · exact Or.inr ⟨m, List.mem_cons_self m rest, h.trans hc⟩
    · exact Or.inr ⟨m', List.mem_cons_of_mem m hm', h⟩

theorem foldl_max_perm {α β : Type} [LinearOrder α] (f : β → α) {l1 l2 : List β}
    (h : l1.Perm l2) (acc : α) :
    l1.foldl (fun a m => max a (f m)) acc = l2.foldl (fun a m => max a (f m)) acc := by
  apply le_antisymm
  · rw [foldl_max_le_iff]
    exact ⟨(foldl_max_bounds f l2 acc).1,
      fun m hm => (foldl_max_bounds f l2 acc).2 m (h.mem_iff.mp hm)⟩
  · rw [foldl_max_le_iff]
    exact ⟨(foldl_max_bounds f l1 acc).1,
      fun m hm => (foldl_max_bounds f l1 acc).2 m (h.mem_iff.mpr hm)⟩

theorem le_foldl_min_iff {α β : Type} [LinearOrder α] (f : β → α) (ms : List β) (acc x : α) :
    x ≤ ms.foldl (fun a m => min a (f m)) acc ↔ x ≤ acc ∧ ∀ m ∈ ms, x ≤ f m := by
  induction ms generalizing acc with
  | nil => simp
  | cons m rest ih =>
    simp only [List.foldl_cons, ih, le_min_iff, List.mem_cons]
    constructor
    · rintro ⟨⟨h1, h2⟩, h3⟩
      refine ⟨h1, fun m' hm' => ?_⟩
      rcases hm' with rfl | hm'
      · exact h2
      · exact h3 m' hm'
    · rintro ⟨h1, h2⟩
      exact ⟨⟨h1, h2 m (Or.inl rfl)⟩, fun m' hm' => h2 m' (Or.inr hm')⟩

theorem foldl_min_bounds {α β : Type} [LinearOrder α] (f : β → α) (ms : List β) (acc : α) :
    ms.foldl (fun a m => min a (f m)) acc ≤ acc ∧
      ∀ m ∈ ms, ms.foldl (fun a m => min a (f m)) acc ≤ f m :=
  (le_foldl_min_iff f ms acc _).mp le_rfl

theorem foldl_min_eq_init_or_mem {α β : Type} [LinearOrder α] (f : β → α) (ms : List β)
    (acc : α) :
    ms.foldl (fun a m => min a (f m)) acc = acc ∨
      ∃ m ∈ ms, ms.foldl (fun a m => min a (f m)) acc = f m := by
  induction ms generalizing acc with
  | nil => exact Or.inl rfl
  | cons m rest ih =>
    simp only [List.foldl_cons]
    rcases ih (min acc (f m)) with h | ⟨m', hm', h⟩
    · rcases min_choice acc (f m) with hc | hc
      · exact Or.inl (h.trans hc)
      · exact Or.inr ⟨m, List.mem_cons_self m rest, h.trans hc⟩
    · exact Or.inr ⟨m', List.mem_cons_of_mem m hm', h⟩

theorem foldl_min_perm {α β : Type} [LinearOrder α] (f : β → α) {l1 l2 : List β}
    (h : l1.Perm l2) (acc : α) :
    l1.foldl (fun a m => min a (f m)) acc = l2.foldl (fun a m => min a (f m)) acc := by
  apply le_antisymm
  · rw [le_foldl_min_iff]
    exact ⟨(foldl_min_bounds f l1 acc).1,
      fun m hm => (foldl_min_bounds f l1 acc).2 m (h.mem_iff.mpr hm)⟩
  · rw [le_foldl_min_iff]
    exact ⟨(foldl_min_bounds f l2 acc).1,
      fun m hm => (foldl_min_bounds f l2 acc).2 m (h.mem_iff.mp hm)⟩

theorem num_max (a b : Int) : num (max a b) = max (num a) (num b) := by
  rcases le_total a b with h | h
  · rw [max_eq_right h, max_eq_right (num_le_num.mpr h)]
  · rw [max_eq_left h, max_eq_left (num_le_num.mpr h)]

theorem num_min (a b : Int) : num (min a b) = min (num a) (num b) := by
  rcases le_total a b with h | h
  · rw [min_eq_left h, min_eq_left (num_le_num.mpr h)]
  · rw [min_eq_right h, min_eq_right (num_le_num.mpr h)]

theorem foldl_max_num {β : Type} (f : β → Int) (ms : List β) (a : Int) :
    ms.foldl (fun acc m => max acc (num (f m))) (num a)
      = num (ms.foldl (fun acc m => max acc (f m)) a) := by
  induction ms generalizing a with
  | nil => rfl
  | cons m rest ih => simp only [List.foldl_cons, ← num_max, ih]

theorem foldl_min_num {β : Type} (f : β → Int) (ms : List β) (a : Int) :
    ms.foldl (fun acc m => min acc (num (f m))) (num a)
      = num (ms.foldl (fun acc m => min acc (f m)) a) := by
  induction ms generalizing a with
  | nil => rfl
  | cons m rest ih => simp only [List.foldl_cons, ← num_min, ih]

theorem foldl_max_shift {β : Type} (f : β → XInt) (ms : List β) (a : XInt) :
    ms.foldl (fun acc m => max acc (f m)) a
      = max a (ms.foldl (fun acc m => max acc (f m)) negInf) := by
  induction ms generalizing a with
  | nil => exact (max_eq_left (negInf_le a)).symm
  | cons m rest ih =>
    simp only [List.foldl_cons]
    rw [ih (max a (f m)), ih (max negInf (f m)), max_eq_right (negInf_le (f m)), max_assoc]

theorem foldl_min_shift {β : Type} (f : β → XInt) (ms : List β) (a : XInt) :
    ms.foldl (fun acc m => min acc (f m)) a
      = min a (ms.foldl (fun acc m => min acc (f m)) posInf) := by
  induction ms generalizing a with
  | nil => exact (min_eq_left (le_posInf a)).symm
  | cons m rest ih =>
    simp only [List.foldl_cons]
    rw [ih (min a (f m)), ih (min posInf (f m)), min_eq_right (le_posInf (f m)), min_assoc]

/-! ### Unfolding lemmas for the reference values -/

theorem qVal_of_gt {Pos Move : Type} (R : Rules Pos Move) (e : Pos → Int) (p : Pos)
    {depth : Nat} (hd : depth > 10) : qVal R e p depth = e p := by
  rw [qVal]
  simp [hd]

theorem qVal_of_le {Pos Move : Type} (R : Rules Pos Move) (e : Pos → Int) (p : Pos)
    {depth : Nat} (hd : ¬ depth > 10) :
    qVal R e p depth
      = ((R.moves p).filter (fun m => R.isCapture p m || R.givesCheck p m)).foldl
          (fun a m => max a (- qVal R e (R.play p m) (depth + 1))) (e p) := by
  rw [qVal]
  simp [hd]

theorem standPat_le_qVal {Pos Move : Type} (R : Rules Pos Move) (e : Pos → Int) (p : Pos)
    (depth : Nat) : e p ≤ qVal R e p depth := by
  by_cases hd : depth > 10
  · rw [qVal_of_gt R e p hd]
  · rw [qVal_of_le R e p hd]
    exact (foldl_max_bounds _ _ _).1

theorem minimax_of_over {Pos Move : Type} (R : Rules Pos Move) (e : Pos → Int) (p : Pos)
    (depth : Nat) (maximizing : Bool) (hov : R.over p = true) :
    minimax R e p depth maximizing = e p := by
  rw [minimax]
  simp [hov]

theorem minimax_of_zero {Pos Move : Type} (R : Rules Pos Move) (e : Pos → Int) (p : Pos)
    (maximizing : Bool) (hov : R.over p = false) :
    minimax R e p 0 maximizing = qVal R e p 0 := by
  rw [minimax]
  simp [hov]

theorem minimax_of_nil {Pos Move : Type} (R : Rules Pos Move) (e : Pos → Int) (p : Pos)
    (depth : Nat) (maximizing : Bool) (hov : R.over p = false) (hd : ¬ depth = 0)
    (hms : R.moves p = []) : minimax R e p depth maximizing = e p := by
  rw [minimax]
  simp [hov, hd, hms]

theorem minimax_max_of_cons {Pos Move : Type} (R : Rules Pos Move) (e : Pos → Int) (p : Pos)
    (depth : Nat) (hov : R.over p = false) (hd : ¬ depth = 0)
    {m : Move} {rest : List Move} (hms : R.moves p = m :: rest) :
    minimax R e p depth true
      = rest.foldl (fun acc m2 => max acc (minimax R e (R.play p m2) (depth - 1) false))
          (minimax R e (R.play p m) (depth - 1) false) := by
  rw [minimax]
  simp [hov, hd, hms]

theorem minimax_min_of_cons {Pos Move : Type} (R : Rules Pos Move) (e : Pos → Int) (p : Pos)
    (depth : Nat) (hov : R.over p = false) (hd : ¬ depth = 0)
    {m : Move} {rest : List Move} (hms : R.moves p = m :: rest) :
    minimax R e p depth false
      = rest.foldl (fun acc m2 => min acc (minimax R e (R.play p m2) (depth - 1) true))
          (minimax R e (R.play p m) (depth - 1) true) := by
  rw [minimax]
  simp [hov, hd, hms]

/-! ### Correctness of the quiescence window -/

theorem qLoop_nil {Pos Move : Type} (R : Rules Pos Move) (e : Pos → Int) (p : Pos)
    (alpha beta : XInt) (depth : Nat) : qLoop R e p [] alpha beta depth = alpha := by
  rw [qLoop]

theorem qLoop_cons {Pos Move : Type} (R : Rules Pos Move) (e : Pos → Int) (p : Pos)
    (m : Move) (rest : List Move) (alpha beta : XInt) (depth : Nat) :
    qLoop R e p (m :: rest) alpha beta depth
      = (if beta ≤ - quiescence_search R e (R.play p m) (-beta) (-alpha) (depth + 1) then beta
         else qLoop R e p rest
           (if alpha < - quiescence_search R e (R.play p m) (-beta) (-alpha) (depth + 1)
            then - quiescence_search R e (R.play p m) (-beta) (-alpha) (depth + 1) else alpha)
           beta depth) := by
  rw [qLoop]

theorem qLoop_spec {Pos Move : Type} (R : Rules Pos Move) (e : Pos → Int) (p : Pos)
    (depth : Nat) (hQS : QS R e (depth + 1)) :
    ∀ (ms : List Move) (alpha beta : XInt), alpha < beta →
      qLoop R e p ms alpha beta depth
        = if ms.any (fun m => decide (beta ≤ num (- qVal R e (R.play p m) (depth + 1)))) = true
          then beta
          else ms.foldl (fun a m => max a (num (- qVal R e (R.play p m) (depth + 1)))) alpha := by
  intro ms
  induction ms with
  | nil =>
    intro alpha beta _hab
    simp [qLoop_nil]
  | cons m rest ih =>
    intro alpha beta hab
    have hwin : -beta < -alpha := XInt.neg_lt_neg_iff.mpr hab
    obtain ⟨hA, hB, hC⟩ := hQS (R.play p m) (-beta) (-alpha) hwin
    have hvq : num (qVal R e (R.play p m) (depth + 1))
        = - num (- qVal R e (R.play p m) (depth + 1)) := by simp
    rw [qLoop_cons, List.any_cons, List.foldl_cons]
    rcases le_or_lt beta (num (- qVal R e (R.play p m) (depth + 1))) with hcase | hcase
    · -- the child certifies a value at or above beta: cutoff, both sides are beta
      have h1 : num (qVal R e (R.play p m) (depth + 1)) ≤ -beta := by
        rw [hvq]
        exact XInt.neg_le_neg_iff.mpr hcase
      have h2 : beta ≤ - quiescence_search R e (R.play p m) (-beta) (-alpha) (depth + 1) := by
        have h3 := XInt.neg_le_neg_iff.mpr (hA h1)
        simpa using h3
      rw [if_pos h2, if_pos]
      simp only [List.any_cons, Bool.or_eq_true, decide_eq_true_eq]
      exact Or.inl hcase
    · rcases le_or_lt (num (- qVal R e (R.play p m) (depth + 1))) alpha with hc2 | hc2
      · -- dominated child: score at most alpha, alpha unchanged
        have h1 : -alpha ≤ num (qVal R e (R.play p m) (depth + 1)) := by
          rw [hvq]
          exact XInt.neg_le_neg_iff.mpr hc2
        have hscore : - quiescence_search R e (R.play p m) (-beta) (-alpha) (depth + 1) ≤ alpha := by
          have h3 := XInt.neg_le_neg_iff.mpr (hB h1)
          simpa using h3
        rw [if_neg (by intro h; exact absurd (lt_of_lt_of_le hab (h.trans hscore)) (lt_irrefl alpha)),
          if_neg (not_lt.mpr hscore), ih alpha beta hab]
        have hfalse : decide (beta ≤ num (- qVal R e (R.play p m) (depth + 1))) = false := by
          simp [not_le.mpr hcase]
        rw [hfalse, Bool.false_or, max_eq_left hc2]
      · -- in-window child: score equals the child value, alpha rises to it
        have h1 : -beta < num (qVal R e (R.play p m) (depth + 1)) := by
          rw [hvq]
          exact XInt.neg_lt_neg_iff.mpr hcase
        have h2 : num (qVal R e (R.play p m) (depth + 1)) < -alpha := by
          rw [hvq]
          exact XInt.neg_lt_neg_iff.mpr hc2
        have hqeq : - quiescence_search R e (R.play p m) (-beta) (-alpha) (depth + 1)
            = num (- qVal R e (R.play p m) (depth + 1)) := by
          rw [hC h1 h2, hvq, neg_neg_x]
        rw [hqeq, if_neg (not_le.mpr hcase), if_pos hc2,
          ih (num (- qVal R e (R.play p m) (depth + 1))) beta hcase]
        have hfalse : decide (beta ≤ num (- qVal R e (R.play p m) (depth + 1))) = false := by
          simp [not_le.mpr hcase]
        rw [hfalse, Bool.false_or, max_eq_right hc2.le]

theorem QS_of_gt {Pos Move : Type} (R : Rules Pos Move) (e : Pos → Int)
    {depth : Nat} (hd : depth > 10) : QS R e depth := by
  intro p alpha beta _hab
  have hq : quiescence_search R e p alpha beta depth = num (e p) := by
    rw [quiescence_search]
    simp [hd]
  have hv := qVal_of_gt R e p hd
  rw [hq, hv]
  exact ⟨fun h => h, fun h => h, fun _ _ => rfl⟩

theorem QS_step {Pos Move : Type} (R : Rules Pos Move) (e : Pos → Int)
    (depth : Nat) (hd : ¬ depth > 10) (hQS : QS R e (depth + 1)) : QS R e depth := by
  intro p alpha beta hab
  have hspQ : e p ≤ qVal R e p depth := standPat_le_qVal R e p depth
  have hunf : quiescence_search R e p alpha beta depth
      = if beta ≤ num (e p) then beta
        else if ((R.moves p).filter (fun m => R.isCapture p m || R.givesCheck p m)).isEmpty
          then num (e p)
          else qLoop R e p
            (order_moves R p ((R.moves p).filter (fun m => R.isCapture p m || R.givesCheck p m)))
            (if alpha < num (e p) then num (e p) else alpha) beta depth := by
    rw [quiescence_search]
    simp [hd]
  by_cases hbsp : beta ≤ num (e p)
  · rw [hunf, if_pos hbsp]
    have hbQ : beta ≤ num (qVal R e p depth) := hbsp.trans (num_le_num.mpr hspQ)
    exact ⟨fun h => absurd (hbQ.trans h) (not_le.mpr hab), fun _ => le_refl beta,
      fun _ h2 => absurd hbQ (not_le.mpr h2)⟩
  · rw [hunf, if_neg hbsp]
    have hspb : num (e p) < beta := not_le.mp hbsp
    by_cases hemp :
        ((R.moves p).filter (fun m => R.isCapture p m || R.givesCheck p m)).isEmpty
    · rw [if_pos hemp]
      have hQsp : qVal R e p depth = e p := by
        rw [qVal_of_le R e p hd, List.isEmpty_iff.mp hemp]
        rfl
      rw [hQsp]
      exact ⟨fun h => h, fun h => absurd (h.trans_lt hspb) (lt_irrefl beta),
        fun _ _ => rfl⟩
    · rw [if_neg hemp]
      have halpha1 : (if alpha < num (e p) then num (e p) else alpha)
          = max alpha (num (e p)) := ite_lt_eq_max alpha (num (e p))
      have hperm :
          (order_moves R p
            ((R.moves p).filter (fun m => R.isCapture p m || R.givesCheck p m))).Perm
            ((R.moves p).filter (fun m => R.isCapture p m || R.givesCheck p m)) :=
        List.perm_insertionSort _ _
      have hsa : max alpha (num (e p)) < beta := max_lt hab hspb
      rw [halpha1, qLoop_spec R e p depth hQS _ (max alpha (num (e p))) beta hsa]
      have hnumQ : num (qVal R e p depth)
          = ((R.moves p).filter (fun m => R.isCapture p m || R.givesCheck p m)).foldl
              (fun a m => max a (num (- qVal R e (R.play p m) (depth + 1)))) (num (e p)) := by
        rw [qVal_of_le R e p hd]
        exact (foldl_max_num _ _ _).symm
      by_cases hany :
          (order_moves R p
            ((R.moves p).filter (fun m => R.isCapture p m || R.givesCheck p m))).any
            (fun m => decide (beta ≤ num (- qVal R e (R.play p m) (depth + 1)))) = true
      · rw [if_pos hany]
        obtain ⟨m, hmo, hm⟩ := List.any_eq_true.mp hany
        have hm' : beta ≤ num (- qVal R e (R.play p m) (depth + 1)) := of_decide_eq_true hm
        have hmq : m ∈ (R.moves p).filter (fun m => R.isCapture p m || R.givesCheck p m) :=
          hperm.mem_iff.mp hmo
        have hsm : num (- qVal R e (R.play p m) (depth + 1)) ≤ num (qVal R e p depth) := by
          rw [hnumQ]
          exact (foldl_max_bounds (fun m2 => num (- qVal R e (R.play p m2) (depth + 1)))
            ((R.moves p).filter (fun m => R.isCapture p m || R.givesCheck p m))
            (num (e p))).2 m hmq
        have hbQ : beta ≤ num (qVal R e p depth) := hm'.trans hsm
        exact ⟨fun h => absurd (hbQ.trans h) (not_le.mpr hab), fun _ => le_refl beta,
          fun _ h2 => absurd hbQ (not_le.mpr h2)⟩
      · rw [if_neg hany]
        have hN2 : (order_moves R p
              ((R.moves p).filter (fun m => R.isCapture p m || R.givesCheck p m))).foldl
              (fun a m => max a (num (- qVal R e (R.play p m) (depth + 1)))) negInf
            = ((R.moves p).filter (fun m => R.isCapture p m || R.givesCheck p m)).foldl
              (fun a m => max a (num (- qVal R e (R.play p m) (depth + 1)))) negInf :=
          foldl_max_perm _ hperm negInf
        have hQmax : num (qVal R e p depth)
            = max (num (e p))
                ((order_moves R p
                  ((R.moves p).filter (fun m => R.isCapture p m || R.givesCheck p m))).foldl
                  (fun a m => max a (num (- qVal R e (R.play p m) (depth + 1)))) negInf) := by
          rw [hnumQ, foldl_max_shift, hN2]
        have hLHS : (order_moves R p
              ((R.moves p).filter (fun m => R.isCapture p m || R.givesCheck p m))).foldl
              (fun a m => max a (num (- qVal R e (R.play p m) (depth + 1))))
              (max alpha (num (e p)))
            = max alpha (num (qVal R e p depth)) := by
          rw [foldl_max_shift, max_assoc, ← hQmax]
        rw [hLHS]
        have hallb : ∀ m ∈ order_moves R p
            ((R.moves p).filter (fun m => R.isCapture p m || R.givesCheck p m)),
            num (- qVal R e (R.play p m) (depth + 1)) < beta := by
          intro m hm
          by_contra hcon
          exact hany (List.any_eq_true.mpr ⟨m, hm, decide_eq_true (not_lt.mp hcon)⟩)
        have hNb : (order_moves R p
              ((R.moves p).filter (fun m => R.isCapture p m || R.givesCheck p m))).foldl
              (fun a m => max a (num (- qVal R e (R.play p m) (depth + 1)))) negInf < beta := by
          rcases foldl_max_eq_init_or_mem
            (fun m => num (- qVal R e (R.play p m) (depth + 1)))
            (order_moves R p
              ((R.moves p).filter (fun m => R.isCapture p m || R.givesCheck p m)))
            negInf with h | ⟨m, hmo, h⟩
          · rw [h]
            exact lt_of_le_of_lt (negInf_le alpha) hab
          · rw [h]
            exact hallb m hmo
        have hQb : num (qVal R e p depth) < beta := by
          rw [hQmax]
          exact max_lt hspb hNb
        refine ⟨fun h => ?_, fun h => absurd h (not_le.mpr hQb), fun h1 _ => ?_⟩
        · rw [max_eq_left h]
        · rw [max_eq_right h1.le]

theorem QS_all {Pos Move : Type} (R : Rules Pos Move) (e : Pos → Int) :
    ∀ depth, QS R e depth := by
  have key : ∀ (n depth : Nat), 11 - depth ≤ n → QS R e depth := by
    intro n
    induction n with
    | zero =>
      intro depth h
      exact QS_of_gt R e (by omega)
    | succ n ih =>
      intro depth _h
      by_cases hd : depth > 10
      · exact QS_of_gt R e hd
      · exact QS_step R e depth hd (ih (depth + 1) (by omega))
  intro depth
  exact key 11 depth (by omega)

/-! ### Correctness of the alpha-beta window for `search` -/

theorem maxLoop_nil {Pos Move : Type} (R : Rules Pos Move) (e : Pos → Int) (p : Pos)
    (d : Nat) (alpha beta best : XInt) : maxLoop R e p [] d alpha beta best = best := by
  rw [maxLoop]

theorem maxLoop_cons {Pos Move : Type} (R : Rules Pos Move) (e : Pos → Int) (p : Pos)
    (m : Move) (rest : List Move) (d : Nat) (alpha beta best : XInt) :
    maxLoop R e p (m :: rest) d alpha beta best
      = (if beta ≤ max alpha (search R e (R.play p m) d alpha beta false)
         then max best (search R e (R.play p m) d alpha beta false)
         else maxLoop R e p rest d (max alpha (search R e (R.play p m) d alpha beta false))
           beta (max best (search R e (R.play p m) d alpha beta false))) := by
  rw [maxLoop]

theorem minLoop_nil {Pos Move : Type} (R : Rules Pos Move) (e : Pos → Int) (p : Pos)
    (d : Nat) (alpha beta best : XInt) : minLoop R e p [] d alpha beta best = best := by
  rw [minLoop]

theorem minLoop_cons {Pos Move : Type} (R : Rules Pos Move) (e : Pos → Int) (p : Pos)
    (m : Move) (rest : List Move) (d : Nat) (alpha beta best : XInt) :
    minLoop R e p (m :: rest) d alpha beta best
      = (if min beta (search R e (R.play p m) d alpha beta true) ≤ alpha
         then min best (search R e (R.play p m) d alpha beta true)
         else minLoop R e p rest d alpha
           (min beta (search R e (R.play p m) d alpha beta true))
           (min best (search R e (R.play p m) d alpha beta true))) := by
  rw [minLoop]

theorem best_le_maxLoop {Pos Move : Type} (R : Rules Pos Move) (e : Pos → Int) (p : Pos)
    (d : Nat) (beta : XInt) :
    ∀ (ms : List Move) (alpha best : XInt), best ≤ maxLoop R e p ms d alpha beta best := by
  intro ms
  induction ms with
  | nil =>
    intro alpha best
    rw [maxLoop_nil]
  | cons m rest ih =>
    intro alpha best
    rw [maxLoop_cons]
    by_cases hcut : beta ≤ max alpha (search R e (R.play p m) d alpha beta false)
    · rw [if_pos hcut]
      exact le_max_left best _
    · rw [if_neg hcut]
      exact (le_max_left best _).trans (ih _ _)

theorem minLoop_le_best {Pos Move : Type} (R : Rules Pos Move) (e : Pos → Int) (p : Pos)
    (d : Nat) (alpha : XInt) :
    ∀ (ms : List Move) (beta best : XInt), minLoop R e p ms d alpha beta best ≤ best := by
  intro ms
  induction ms with
  | nil =>
    intro beta best
    rw [minLoop_nil]
  | cons m rest ih =>
    intro beta best
    rw [minLoop_cons]
    by_cases hcut : min beta (search R e (R.play p m) d alpha beta true) ≤ alpha
    · rw [if_pos hcut]
      exact min_le_left best _
    · rw [if_neg hcut]
      exact (ih _ _).trans (min_le_left best _)

theorem maxLoop_below {Pos Move : Type} (R : Rules Pos Move) (e : Pos → Int) (p : Pos)
    (d : Nat) (beta : XInt) (hSS : SS R e d) :
    ∀ (ms : List Move) (alpha best : XInt), alpha < beta →
      (∀ m ∈ ms, num (minimax R e (R.play p m) d false) ≤ alpha) →
      maxLoop R e p ms d alpha beta best ≤ max best alpha := by
  intro ms
  induction ms with
  | nil =>
    intro alpha best _hab _hall
    rw [maxLoop_nil]
    exact le_max_left best alpha
  | cons m rest ih =>
    intro alpha best hab hall
    have hm := hall m (List.mem_cons_self m rest)
    have hv : search R e (R.play p m) d alpha beta false ≤ alpha :=
      (hSS (R.play p m) alpha beta false hab).1 hm
    rw [maxLoop_cons, max_eq_left hv, if_neg (not_le.mpr hab)]
    have hrest := ih alpha (max best (search R e (R.play p m) d alpha beta false)) hab
      (fun m2 hm2 => hall m2 (List.mem_cons_of_mem m hm2))
    refine hrest.trans ?_
    rw [max_assoc, max_eq_right hv]

theorem minLoop_above {Pos Move : Type} (R : Rules Pos Move) (e : Pos → Int) (p : Pos)
    (d : Nat) (alpha : XInt) (hSS : SS R e d) :
    ∀ (ms : List Move) (beta best : XInt), alpha < beta →
      (∀ m ∈ ms, beta ≤ num (minimax R e (R.play p m) d true)) →
      min best beta ≤ minLoop R e p ms d alpha beta best := by
  intro ms
  induction ms with
  | nil =>
    intro beta best _hab _hall
    rw [minLoop_nil]
    exact min_le_left best beta
  | cons m rest ih =>
    intro beta best hab hall
    have hm := hall m (List.mem_cons_self m rest)
    have hv : beta ≤ search R e (R.play p m) d alpha beta true :=
      (hSS (R.play p m) alpha beta true hab).2.1 hm
    rw [minLoop_cons, min_eq_left hv, if_neg (not_le.mpr hab)]
    have hrest := ih beta (min best (search R e (R.play p m) d alpha beta true)) hab
      (fun m2 hm2 => hall m2 (List.mem_cons_of_mem m hm2))
    refine le_trans ?_ hrest
    rw [min_assoc, min_eq_right hv]

theorem maxLoop_above {Pos Move : Type} (R : Rules Pos Move) (e : Pos → Int) (p : Pos)
    (d : Nat) (beta : XInt) (hSS : SS R e d) :
    ∀ (ms : List Move) (alpha best : XInt), alpha < beta →
      (∃ m ∈ ms, beta ≤ num (minimax R e (R.play p m) d false)) →
      beta ≤ maxLoop R e p ms d alpha beta best := by
  intro ms
  induction ms with
  | nil =>
    intro alpha best _hab hex
    exact absurd hex (by simp)
  | cons m rest ih =>
    intro alpha best hab hex
    rw [maxLoop_cons]
    by_cases hcut : beta ≤ max alpha (search R e (R.play p m) d alpha beta false)
    · rw [if_pos hcut]
      rcases max_choice alpha (search R e (R.play p m) d alpha beta false) with hc | hc
      · rw [hc] at hcut
        exact absurd (hab.trans_le hcut) (lt_irrefl alpha)
      · rw [hc] at hcut
        exact hcut.trans (le_max_right best _)
    · rw [if_neg hcut]
      have halpha1 : max alpha (search R e (R.play p m) d alpha beta false) < beta :=
        not_le.mp hcut
      rcases hex with ⟨m2, hm2, hbm2⟩
      rcases List.mem_cons.mp hm2 with rfl | hm2r
      · have hv : beta ≤ search R e (R.play p m2) d alpha beta false :=
          (hSS (R.play p m2) alpha beta false hab).2.1 hbm2
        exact absurd ((le_max_right alpha _).trans_lt halpha1)
          (not_lt.mpr (hv.trans (le_refl _)))
      · exact ih _ _ halpha1 ⟨m2, hm2r, hbm2⟩

theorem minLoop_below {Pos Move : Type} (R : Rules Pos Move) (e : Pos → Int) (p : Pos)
    (d : Nat) (alpha : XInt) (hSS : SS R e d) :
    ∀ (ms : List Move) (beta best : XInt), alpha < beta →
      (∃ m ∈ ms, num (minimax R e (R.play p m) d true) ≤ alpha) →
      minLoop R e p ms d alpha beta best ≤ alpha := by
  intro ms
  induction ms with
  | nil =>
    intro beta best _hab hex
    exact absurd hex (by simp)
  | cons m rest ih =>
    intro beta best hab hex
    rw [minLoop_cons]
    by_cases hcut : min beta (search R e (R.play p m) d alpha beta true) ≤ alpha
    · rw [if_pos hcut]
      rcases min_choice beta (search R e (R.play p m) d alpha beta true) with hc | hc
      · rw [hc] at hcut
        exact absurd (hcut.trans_lt hab) (lt_irrefl beta)
      · rw [hc] at hcut
        exact (min_le_right best _).trans hcut
    · rw [if_neg hcut]
      have hbeta1 : alpha < min beta (search R e (R.play p m) d alpha beta true) :=
        not_le.mp hcut
      rcases hex with ⟨m2, hm2, hbm2⟩
      rcases List.mem_cons.mp hm2 with rfl | hm2r
      · have hv : search R e (R.play p m2) d alpha beta true ≤ alpha :=
          (hSS (R.play p m2) alpha beta true hab).1 hbm2
        exact absurd ((min_le_right beta _).trans hv) (not_le.mpr hbeta1)
      · exact ih _ _ hbeta1 ⟨m2, hm2r, hbm2⟩

theorem maxLoop_exact {Pos Move : Type} (R : Rules Pos Move) (e : Pos → Int) (p : Pos)
    (d : Nat) (beta : XInt) (hSS : SS R e d) :
    ∀ (ms : List Move) (alpha best : XInt), alpha < beta →
      alpha < ms.foldl (fun a m => max a (num (minimax R e (R.play p m) d false))) alpha →
      ms.foldl (fun a m => max a (num (minimax R e (R.play p m) d false))) alpha < beta →
      maxLoop R e p ms d alpha beta best
        = max best
            (ms.foldl (fun a m => max a (num (minimax R e (R.play p m) d false))) alpha) := by
  intro ms
  induction ms with
  | nil =>
    intro alpha best _hab hF1 _hF2
    exact absurd hF1 (lt_irrefl alpha)
  | cons m rest ih =>
    intro alpha best hab hF1 hF2
    simp only [List.foldl_cons] at hF1 hF2 ⊢
    have hMmF : num (minimax R e (R.play p m) d false)
        ≤ rest.foldl (fun a m2 => max a (num (minimax R e (R.play p m2) d false)))
            (max alpha (num (minimax R e (R.play p m) d false))) :=
      (le_max_right alpha _).trans
        (foldl_max_bounds (fun m2 => num (minimax R e (R.play p m2) d false)) rest
          (max alpha (num (minimax R e (R.play p m) d false)))).1
    have hMmb : num (minimax R e (R.play p m) d false) < beta := hMmF.trans_lt hF2
    rcases le_or_lt (num (minimax R e (R.play p m) d false)) alpha with hm1 | hm1
    · have hv : search R e (R.play p m) d alpha beta false ≤ alpha :=
        (hSS (R.play p m) alpha beta false hab).1 hm1
      rw [maxLoop_cons, max_eq_left hv, if_neg (not_le.mpr hab)]
      rw [max_eq_left hm1] at hF1 hF2 ⊢
      rw [ih alpha (max best (search R e (R.play p m) d alpha beta false)) hab hF1 hF2,
        max_assoc, max_eq_right (hv.trans (le_of_lt hF1))]
    · have hveq : search R e (R.play p m) d alpha beta false
          = num (minimax R e (R.play p m) d false) :=
        (hSS (R.play p m) alpha beta false hab).2.2 hm1 hMmb
      rw [maxLoop_cons, hveq, max_eq_right hm1.le, if_neg (not_le.mpr hMmb)]
      rw [max_eq_right hm1.le] at hF1 hF2
      have hinit : num (minimax R e (R.play p m) d false)
          ≤ rest.foldl (fun a m2 => max a (num (minimax R e (R.play p m2) d false)))
              (num (minimax R e (R.play p m) d false)) :=
        (foldl_max_bounds (fun m2 => num (minimax R e (R.play p m2) d false)) rest _).1
      rcases eq_or_lt_of_le hinit with heq | hlt
      · have hupper := maxLoop_below R e p d beta hSS rest
          (num (minimax R e (R.play p m) d false))
          (max best (num (minimax R e (R.play p m) d false))) hMmb
          (fun m2 hm2 => ((foldl_max_bounds
            (fun m2 => num (minimax R e (R.play p m2) d false)) rest
            (num (minimax R e (R.play p m) d false))).2 m2 hm2).trans heq.symm.le)
        have hlower := best_le_maxLoop R e p d beta rest
          (num (minimax R e (R.play p m) d false))
          (max best (num (minimax R e (R.play p m) d false)))
        rw [← heq]
        apply le_antisymm
        · refine hupper.trans ?_
          rw [max_assoc, max_self]
        · exact hlower
      · rw [ih (num (minimax R e (R.play p m) d false))
            (max best (num (minimax R e (R.play p m) d false))) hMmb hlt hF2,
          max_assoc, max_eq_right hinit]

theorem minLoop_exact {Pos Move : Type} (R : Rules Pos Move) (e : Pos → Int) (p : Pos)
    (d : Nat) (alpha : XInt) (hSS : SS R e d) :
    ∀ (ms : List Move) (beta best : XInt), alpha < beta →
      ms.foldl (fun a m => min a (num (minimax R e (R.play p m) d true))) beta < beta →
      alpha < ms.foldl (fun a m => min a (num (minimax R e (R.play p m) d true))) beta →
      minLoop R e p ms d alpha beta best
        = min best
            (ms.foldl (fun a m => min a (num (minimax R e (R.play p m) d true))) beta) := by
  intro ms
  induction ms with
  | nil =>
    intro beta best _hab hF1 _hF2
    exact absurd hF1 (lt_irrefl beta)
  | cons m rest ih =>
    intro beta best hab hF1 hF2
    simp only [List.foldl_cons] at hF1 hF2 ⊢
    have hMmF : rest.foldl (fun a m2 => min a (num (minimax R e (R.play p m2) d true)))
          (min beta (num (minimax R e (R.play p m) d true)))
        ≤ num (minimax R e (R.play p m) d true) :=
      ((foldl_min_bounds (fun m2 => num (minimax R e (R.play p m2) d true)) rest
          (min beta (num (minimax R e (R.play p m) d true)))).1).trans
        (min_le_right beta _)
    have hMmb : alpha < num (minimax R e (R.play p m) d true) := hF2.trans_le hMmF
    rcases le_or_lt beta (num (minimax R e (R.play p m) d true)) with hm1 | hm1
    · have hv : beta ≤ search R e (R.play p m) d alpha beta true :=
        (hSS (R.play p m) alpha beta true hab).2.1 hm1
      rw [minLoop_cons, min_eq_left hv, if_neg (not_le.mpr hab)]
      rw [min_eq_left hm1] at hF1 hF2 ⊢
      rw [ih beta (min best (search R e (R.play p m) d alpha beta true)) hab hF1 hF2,
        min_assoc, min_eq_right ((le_of_lt hF1).trans hv)]
    · have hveq : search R e (R.play p m) d alpha beta true
          = num (minimax R e (R.play p m) d true) :=
        (hSS (R.play p m) alpha beta true hab).2.2 hMmb hm1
      rw [minLoop_cons, hveq, min_eq_right hm1.le, if_neg (not_le.mpr hMmb)]
      rw [min_eq_right hm1.le] at hF1 hF2
      have hinit : rest.foldl (fun a m2 => min a (num (minimax R e (R.play p m2) d true)))
            (num (minimax R e (R.play p m) d true))
          ≤ num (minimax R e (R.play p m) d true) :=
        (foldl_min_bounds (fun m2 => num (minimax R e (R.play p m2) d true)) rest _).1
      rcases eq_or_lt_of_le hinit with heq | hlt
      · have hupper := minLoop_above R e p d alpha hSS rest
          (num (minimax R e (R.play p m) d true))
          (min best (num (minimax R e (R.play p m) d true))) hMmb
          (fun m2 hm2 => heq.symm.le.trans ((foldl_min_bounds
            (fun m2 => num (minimax R e (R.play p m2) d true)) rest
            (num (minimax R e (R.play p m) d true))).2 m2 hm2))
        have hlower := minLoop_le_best R e p d alpha rest
          (num (minimax R e (R.play p m) d true))
          (min best (num (minimax R e (R.play p m) d true)))
        rw [heq]
        apply le_antisymm
        · exact hlower
        · refine le_trans ?_ hupper
          rw [min_assoc, min_self]
      · rw [ih (num (minimax R e (R.play p m) d true))
            (min best (num (minimax R e (R.play p m) d true))) hMmb hlt hF2,
          min_assoc, min_eq_right hinit]

theorem search_of_over {Pos Move : Type} (R : Rules Pos Move) (e : Pos → Int) (p : Pos)
    (depth : Nat) (alpha beta : XInt) (maximizing : Bool) (hov : R.over p = true) :
    search R e p depth alpha beta maximizing = num (e p) := by
  rw [search]
  simp [hov]

theorem search_zero {Pos Move : Type} (R : Rules Pos Move) (e : Pos → Int) (p : Pos)
    (alpha beta : XInt) (maximizing : Bool) (hov : R.over p = false) :
    search R e p 0 alpha beta maximizing = quiescence_search R e p alpha beta 0 := by
  rw [search]
  simp [hov]

theorem search_of_nil {Pos Move : Type} (R : Rules Pos Move) (e : Pos → Int) (p : Pos)
    (depth : Nat) (alpha beta : XInt) (maximizing : Bool) (hov : R.over p = false)
    (hd : ¬ depth = 0) (hms : R.moves p = []) :
    search R e p depth alpha beta maximizing = num (e p) := by
  rw [search]
  simp [hov, hd, hms]

theorem search_max_eq_loop {Pos Move : Type} (R : Rules Pos Move) (e : Pos → Int) (p : Pos)
    (depth : Nat) (alpha beta : XInt) (hov : R.over p = false) (hd : ¬ depth = 0)
    (hne : (R.moves p).isEmpty = false) :
    search R e p depth alpha beta true
      = maxLoop R e p (order_moves R p (R.moves p)) (depth - 1) alpha beta negInf := by
  rw [search]
  simp [hov, hd, hne]

theorem search_min_eq_loop {Pos Move : Type} (R : Rules Pos Move) (e : Pos → Int) (p : Pos)
    (depth : Nat) (alpha beta : XInt) (hov : R.over p = false) (hd : ¬ depth = 0)
    (hne : (R.moves p).isEmpty = false) :
    search R e p depth alpha beta false
      = minLoop R e p (order_moves R p (R.moves p)) (depth - 1) alpha beta posInf := by
  rw [search]
  simp [hov, hd, hne]

theorem num_minimax_max_fold {Pos Move : Type} (R : Rules Pos Move) (e : Pos → Int) (p : Pos)
    (depth : Nat) (hov : R.over p = false) (hd : ¬ depth = 0)
    {m : Move} {rest : List Move} (hms : R.moves p = m :: rest) :
    num (minimax R e p depth true)
      = (m :: rest).foldl
          (fun a m2 => max a (num (minimax R e (R.play p m2) (depth - 1) false))) negInf := by
  rw [minimax_max_of_cons R e p depth hov hd hms]
  simp only [List.foldl_cons]
  rw [show max negInf (num (minimax R e (R.play p m) (depth - 1) false))
      = num (minimax R e (R.play p m) (depth - 1) false) from max_eq_right (negInf_le _)]
  exact (foldl_max_num (fun m2 => minimax R e (R.play p m2) (depth - 1) false) rest _).symm

theorem num_minimax_min_fold {Pos Move : Type} (R : Rules Pos Move) (e : Pos → Int) (p : Pos)
    (depth : Nat) (hov : R.over p = false) (hd : ¬ depth = 0)
    {m : Move} {rest : List Move} (hms : R.moves p = m :: rest) :
    num (minimax R e p depth false)
      = (m :: rest).foldl
          (fun a m2 => min a (num (minimax R e (R.play p m2) (depth - 1) true))) posInf := by
  rw [minimax_min_of_cons R e p depth hov hd hms]
  simp only [List.foldl_cons]
  rw [show min posInf (num (minimax R e (R.play p m) (depth - 1) true))
      = num (minimax R e (R.play p m) (depth - 1) true) from min_eq_right (le_posInf _)]
  exact (foldl_min_num (fun m2 => minimax R e (R.play p m2) (depth - 1) true) rest _).symm

theorem SS_zero {Pos Move : Type} (R : Rules Pos Move) (e : Pos → Int) : SS R e 0 := by
  intro p alpha beta maximizing hab
  by_cases hov : R.over p
  · rw [search_of_over R e p 0 alpha beta maximizing hov,
      minimax_of_over R e p 0 maximizing hov]
    exact ⟨fun h => h, fun h => h, fun _ _ => rfl⟩
  · rw [search_zero R e p alpha beta maximizing (by simpa using hov),
      minimax_of_zero R e p maximizing (by simpa using hov)]
    exact QS_all R e 0 p alpha beta hab

theorem SS_succ {Pos Move : Type} (R : Rules Pos Move) (e : Pos → Int) (d : Nat)
    (hSS : SS R e d) : SS R e (d + 1) := by
  intro p alpha beta maximizing hab
  by_cases hov : R.over p
  · rw [search_of_over R e p (d + 1) alpha beta maximizing hov,
      minimax_of_over R e p (d + 1) maximizing hov]
    exact ⟨fun h => h, fun h => h, fun _ _ => rfl⟩
  · have hov' : R.over p = false := by simpa using hov
    have hd : ¬ (d + 1 = 0) := by omega
    rcases hms : R.moves p with _ | ⟨m, rest⟩
    · rw [search_of_nil R e p (d + 1) alpha beta maximizing hov' hd hms,
        minimax_of_nil R e p (d + 1) maximizing hov' hd hms]
      exact ⟨fun h => h, fun h => h, fun _ _ => rfl⟩
    · have hne : (R.moves p).isEmpty = false := by rw [hms]; rfl
      have hperm : (order_moves R p (R.moves p)).Perm (R.moves p) :=
        List.perm_insertionSort _ _
      cases maximizing with
      | true =>
        rw [search_max_eq_loop R e p (d + 1) alpha beta hov' hd hne]
        simp only [Nat.add_sub_cancel]
        have hMfold : num (minimax R e p (d + 1) true)
            = (order_moves R p (R.moves p)).foldl
                (fun a m2 => max a (num (minimax R e (R.play p m2) d false))) negInf := by
          rw [num_minimax_max_fold R e p (d + 1) hov' hd hms, ← hms]
          exact (foldl_max_perm (fun m2 => num (minimax R e (R.play p m2) d false))
            hperm negInf).symm
        refine ⟨?_, ?_, ?_⟩
        · intro h
          have hall : ∀ m2 ∈ order_moves R p (R.moves p),
              num (minimax R e (R.play p m2) d false) ≤ alpha := by
            intro m2 hm2
            refine le_trans ?_ h
            rw [hMfold]
            exact (foldl_max_bounds (fun m3 => num (minimax R e (R.play p m3) d false))
              (order_moves R p (R.moves p)) negInf).2 m2 hm2
          have := maxLoop_below R e p d beta hSS (order_moves R p (R.moves p))
            alpha negInf hab hall
          rwa [max_eq_right (negInf_le alpha)] at this
        · intro h
          rcases foldl_max_eq_init_or_mem
              (fun m2 => num (minimax R e (R.play p m2) d false))
              (order_moves R p (R.moves p)) negInf with hcase | ⟨m2, hm2, hcase⟩
          · rw [hMfold, hcase] at h
            exact absurd (hab.trans_le h) (not_lt_negInf alpha)
          · refine maxLoop_above R e p d beta hSS (order_moves R p (R.moves p))
              alpha negInf hab ⟨m2, hm2, ?_⟩
            rw [hMfold, hcase] at h
            exact h
        · intro h1 h2
          have hF : (order_moves R p (R.moves p)).foldl
              (fun a m2 => max a (num (minimax R e (R.play p m2) d false))) alpha
              = num (minimax R e p (d + 1) true) := by
            rw [foldl_max_shift, ← hMfold, max_eq_right h1.le]
          have := maxLoop_exact R e p d beta hSS (order_moves R p (R.moves p))
            alpha negInf hab (by rw [hF]; exact h1) (by rw [hF]; exact h2)
          rw [this, hF, max_eq_right (negInf_le _)]
      | false =>
        rw [search_min_eq_loop R e p (d + 1) alpha beta hov' hd hne]
        simp only [Nat.add_sub_cancel]
        have hMfold : num (minimax R e p (d + 1) false)
            = (order_moves R p (R.moves p)).foldl
                (fun a m2 => min a (num (minimax R e (R.play p m2) d true))) posInf := by
          rw [num_minimax_min_fold R e p (d + 1) hov' hd hms, ← hms]
          exact (foldl_min_perm (fun m2 => num (minimax R e (R.play p m2) d true))
            hperm posInf).symm
        refine ⟨?_, ?_, ?_⟩
        · intro h
          rcases foldl_min_eq_init_or_mem
              (fun m2 => num (minimax R e (R.play p m2) d true))
              (order_moves R p (R.moves p)) posInf with hcase | ⟨m2, hm2, hcase⟩
          · rw [hMfold, hcase] at h
            exact absurd (h.trans_lt hab) (not_posInf_lt beta)
          · refine minLoop_below R e p d alpha hSS (order_moves R p (R.moves p))
              beta posInf hab ⟨m2, hm2, ?_⟩
            rw [hMfold, hcase] at h
            exact h
        · intro h
          have hall : ∀ m2 ∈ order_moves R p (R.moves p),
              beta ≤ num (minimax R e (R.play p m2) d true) := by
            intro m2 hm2
            refine h.trans ?_
            rw [hMfold]
            exact (foldl_min_bounds (fun m3 => num (minimax R e (R.play p m3) d true))
              (order_moves R p (R.moves p)) posInf).2 m2 hm2
          have := minLoop_above R e p d alpha hSS (order_moves R p (R.moves p))
            beta posInf hab hall
          rwa [min_eq_right (le_posInf beta)] at this
        · intro h1 h2
          have hF : (order_moves R p (R.moves p)).foldl
              (fun a m2 => min a (num (minimax R e (R.play p m2) d true))) beta
              = num (minimax R e p (d + 1) false) := by
            rw [foldl_min_shift, ← hMfold, min_eq_right h2.le]
          have := minLoop_exact R e p d alpha hSS (order_moves R p (R.moves p))
            beta posInf hab (by rw [hF]; exact h2) (by rw [hF]; exact h1)
          rw [this, hF, min_eq_right (le_posInf _)]

theorem SS_all {Pos Move : Type} (R : Rules Pos Move) (e : Pos → Int) :
    ∀ depth, SS R e depth := by
  intro depth
  induction depth with
  | zero => exact SS_zero R e
  | succ d ih => exact SS_succ R e d ih

/-! ### Claim theorems -/

/-- Claim C1, counterexample: with the narrow window `alpha = 1`, `beta = 2`
and depth 1 on the game `RA` (two quiet leaves worth 0 and 10), `search`
returns 2 while the unpruned minimax value of the same tree is 10, so the
value returned by `search(position, d, alpha, beta, maximizing)` does not
equal the unpruned full minimax expansion for every `alpha`, `beta`. -/
theorem C1_counterexample :
    search RA eA 0 1 (num 1) (num 2) true = num 2 ∧
    minimax RA eA 0 1 true = 10 ∧
    search RA eA 0 1 (num 1) (num 2) true ≠ num (minimax RA eA 0 1 true) := by
  have h1 : search RA eA 0 1 (num 1) (num 2) true = num 2 := by
    simp [search, maxLoop, quiescence_search, qLoop, order_moves, movePriority,
      List.insertionSort, List.orderedInsert, RA, eA]
  have h2 : minimax RA eA 0 1 true = 10 := by
    simp [minimax, qVal, RA, eA]
  refine ⟨h1, h2, ?_⟩
  rw [h1, h2]
  decide

/-- Claim C1, amended: for every position and depth, `search` called with the
full window (`alpha = -inf`, `beta = +inf`, as `find_best_move` does) returns
exactly the value of the unpruned full minimax expansion of the same game
tree with the same leaf evaluation (`qVal` at depth 0); with a narrower
window the result is only a sound bound. -/
theorem C1_full_window_search_eq_minimax {Pos Move : Type} (R : Rules Pos Move)
    (e : Pos → Int) (p : Pos) (depth : Nat) (maximizing : Bool) :
    search R e p depth negInf posInf maximizing
      = num (minimax R e p depth maximizing) :=
  (SS_all R e depth p negInf posInf maximizing negInf_lt_posInf).2.2
    (negInf_lt_num _) (num_lt_posInf _)

/-- Claim C2: the undo discipline is broken on failure paths.  On the game
`RB`, where evaluating the child position raises, a depth-1 `search` from
position 0 propagates the failure with the pushed move still on the stack
(the board is left at position 1, not restored to position 0), and a
top-level `iterative_deepening_search`, which recovers that failure with its
bare `except`, likewise returns with the position still corrupted. -/
theorem C2_board_not_restored_on_failure :
    searchE RB eB ⟨0, []⟩ 1 negInf posInf true = (Except.error (), ⟨1, [0]⟩) ∧
    (⟨1, [0]⟩ : Brd Nat) ≠ ⟨0, []⟩ ∧
    (iterative_deepening_searchE RB eB ⟨0, []⟩ 1 false (fun _ => false)).2 = ⟨1, [0]⟩ := by
  refine ⟨?_, by decide, ?_⟩
  · simp [searchE, maxLoopE, quiescence_searchE, order_moves, movePriority,
      List.insertionSort, List.orderedInsert, pushB, RB, eB]
  · simp [iterative_deepening_searchE, idLoopE, find_best_moveE, fbmLoopE, searchE,
      quiescence_searchE, order_moves, movePriority, List.insertionSort,
      List.orderedInsert, pushB, List.range', RB, eB]

/-- Claim C3: on a position with no legal moves (`RB` position 2) in which no
deepening iteration produces a move, `iterative_deepening_search` does not
return an absent result: its final statement indexes the empty legal-move
list (`list(board.legal_moves)[0]`) and raises IndexError, modelled by
`Except.error`. -/
theorem C3_terminal_position_raises :
    iterative_deepening_searchE RB eB ⟨2, []⟩ 1 false (fun _ => false)
      = (Except.error (), ⟨2, []⟩) := by
  simp [iterative_deepening_searchE, idLoopE, find_best_moveE, List.range', RB, eB]

/-- Claim C9: `iterative_deepening_search` can return a move that is not in
the root position's legal-move set.  On `RB` the depth-1 search fails after
pushing the only legal move of position 0; the failure is recovered with the
board left at position 1, and the fallback `list(board.legal_moves)[0]`
returns move 1 — a legal move of the corrupted position 1, absent from the
legal moves of the original position 0. -/
theorem C9_returned_move_not_legal :
    iterative_deepening_searchE RB eB ⟨0, []⟩ 1 false (fun _ => false)
      = (Except.ok 1, ⟨1, [0]⟩) ∧
    ¬ ((1 : Nat) ∈ RB.moves 0) := by
  constructor
  · simp [iterative_deepening_searchE, idLoopE, find_best_moveE, fbmLoopE, searchE,
      quiescence_searchE, order_moves, movePriority, List.insertionSort,
      List.orderedInsert, pushB, List.range', RB, eB]
  · decide

/-- Claim C4, counterexample: position 1 of `RA` has no capture or checking
move and stand-pat value 0; with `alpha = 10`, `beta = 20` and `qdepth = 0`,
`quiescence_search` returns the stand-pat value 0 (line 72 of engine.py
returns `stand_pat`), not `alpha` as the claim states. -/
theorem C4_counterexample :
    (RA.moves 1).filter (fun m => RA.isCapture 1 m || RA.givesCheck 1 m) = [] ∧
    quiescence_search RA eA 1 (num 10) (num 20) 0 = num 0 ∧
    quiescence_search RA eA 1 (num 10) (num 20) 0 ≠ num 10 := by
  refine ⟨by decide, ?_, ?_⟩
  · simp [quiescence_search, RA, eA]
  · have h : quiescence_search RA eA 1 (num 10) (num 20) 0 = num 0 := by
      simp [quiescence_search, RA, eA]
    rw [h]
    decide

/-- Claim C4, amended: for every position with no legal capture or checking
move and every `qdepth <= 10`, `quiescence_search` returns `beta` when the
stand-pat evaluation is at least `beta`, and otherwise returns the stand-pat
evaluation itself — which equals the raised `alpha` only when stand-pat
exceeded the incoming `alpha`. -/
theorem C4_quiet_position_returns_standPat {Pos Move : Type} (R : Rules Pos Move)
    (e : Pos → Int) (p : Pos) (alpha beta : XInt) (depth : Nat) (hd : depth ≤ 10)
    (hq : (R.moves p).filter (fun m => R.isCapture p m || R.givesCheck p m) = []) :
    quiescence_search R e p alpha beta depth
      = if beta ≤ num (e p) then beta else num (e p) := by
  have hd' : ¬ depth > 10 := by omega
  rw [quiescence_search]
  simp [hd', hq]

/-- Witness for the amended C4 at a concrete quiet position. -/
theorem C4_quiet_position_returns_standPat_witness :
    ((0 : Nat) ≤ 10 ∧
      (RA.moves 1).filter (fun m => RA.isCapture 1 m || RA.givesCheck 1 m) = []) ∧
    quiescence_search RA eA 1 (num 10) (num 20) 0
      = if (num 20 : XInt) ≤ num (eA 1) then num 20 else num (eA 1) :=
  ⟨⟨by decide, by decide⟩,
    C4_quiet_position_returns_standPat RA eA 1 (num 10) (num 20) 0 (by decide) (by decide)⟩

/-- Claim C5: on a position with no legal capture or checking move,
`quiescence_search` over the full window returns exactly the static
evaluation (pure stand-pat). -/
theorem C5_full_window_quiescence_is_standPat {Pos Move : Type} (R : Rules Pos Move)
    (e : Pos → Int) (p : Pos)
    (hq : (R.moves p).filter (fun m => R.isCapture p m || R.givesCheck p m) = []) :
    quiescence_search R e p negInf posInf 0 = num (e p) := by
  rw [quiescence_search]
  simp [hq]

/-- Witness for C5 at a concrete quiet position. -/
theorem C5_full_window_quiescence_is_standPat_witness :
    (RA.moves 1).filter (fun m => RA.isCapture 1 m || RA.givesCheck 1 m) = [] ∧
    quiescence_search RA eA 1 negInf posInf 0 = num (eA 1) :=
  ⟨by decide, C5_full_window_quiescence_is_standPat RA eA 1 (by decide)⟩

/-- Claim C6: the check penalty does not depend on the `color` argument.  On
`bC6` (White Ka1 and Rh1 against Black Kh8, Black to move and in check),
`evaluate_king_safety` charges the -50 penalty to White's safety score even
though White is not in check, and to Black's as well, so the king-safety
balance cancels and never reflects which side is checked: the source tests
`board.is_check()` (side to move) instead of the `color` parameter. -/
theorem C6_check_penalty_follows_side_to_move :
    evaluate_king_safety bC6 Color.white = some (-50) ∧
    bC6.inCheckColor Color.white = false ∧
    evaluate_king_safety bC6 Color.black = some (-50) ∧
    bC6.inCheckColor Color.black = true := by
  refine ⟨by decide, by decide, by decide, by decide⟩

/-- Claim C7, counterexample: on `RC7`, move 5 is a capture whose destination
square is empty (en passant) made by a pawn, and move 6 is a quiet move to a
center square.  By the claim's priority formula the capture scores
`100 * 10 - 100 = 900` and must sort before the quiet move's 20, but
`order_moves` gives the capture no capture term (`piece_at(to_square)` is
`None`), scores it 0, and returns the quiet move first. -/
theorem C7_counterexample :
    order_moves RC7 0 [5, 6] = [6, 5] ∧
    RC7.isCapture 0 5 = true ∧
    RC7.pieceTypeAt 0 (RC7.toSq 5) = none ∧
    RC7.pieceTypeAt 0 (RC7.fromSq 5) = some PieceType.pawn ∧
    movePriority RC7 0 5 = 0 ∧
    movePriority RC7 0 6 = 20 := by
  refine ⟨by decide, by decide, by decide, by decide, by decide, by decide⟩

/-- Claim C7, amended: `order_moves` returns a permutation of its input (no
move dropped or added), deterministically (it is a pure function of the
position and list), sorted by descending priority, where the priority is the
source's: `victim * 10 - attacker` for captures with both the destination
occupant and the mover present (an en-passant capture, whose destination
square is empty, receives no capture term), +50 if the move gives check,
+800 for a promotion, +60 for a castle, +20 for a central destination. -/
theorem C7_order_moves_perm_sorted {Pos Move : Type} (R : Rules Pos Move) (p : Pos)
    (ms : List Move) :
    (order_moves R p ms).Perm ms ∧
    (order_moves R p ms).Sorted (fun a b => movePriority R p b ≤ movePriority R p a) := by
  constructor
  · exact List.perm_insertionSort _ ms
  · haveI : IsTotal Move (fun a b => movePriority R p b ≤ movePriority R p a) :=
      ⟨fun a b => le_total _ _⟩
    haveI : IsTrans Move (fun a b => movePriority R p b ≤ movePriority R p a) :=
      ⟨fun _ _ _ h1 h2 => le_trans h2 h1⟩
    exact List.sorted_insertionSort _ ms

/-- Claim C8: for every board in which the side to move is checkmated,
`evaluate_board` returns the -999999 sentinel regardless of every other
field (material included); when not checkmated but stalemated, with
insufficient material, or in a repetition, it returns exactly 0. -/
theorem C8_terminal_evaluation (b : Board) :
    (b.isCheckmate = true → evaluate_board b = some (-999999)) ∧
    (b.isCheckmate = false →
      (b.isStalemate || b.insufficientMaterial || b.repetition) = true →
      evaluate_board b = some 0) := by
  constructor
  · intro h
    simp [evaluate_board, h]
  · intro h1 h2
    simp [evaluate_board, h1, h2]

/-- Witness for C8 on a concrete checkmate and a concrete stalemate. -/
theorem C8_terminal_evaluation_witness :
    (bC8mate.isCheckmate = true ∧ evaluate_board bC8mate = some (-999999)) ∧
    (bC8stale.isCheckmate = false ∧
      (bC8stale.isStalemate || bC8stale.insufficientMaterial || bC8stale.repetition) = true ∧
      evaluate_board bC8stale = some 0) :=
  ⟨⟨by decide, (C8_terminal_evaluation bC8mate).1 (by decide)⟩,
    ⟨by decide, by decide,
      (C8_terminal_evaluation bC8stale).2 (by decide) (by decide)⟩⟩

/-- Claim C10: the pawn-shield probe leaves the 0..63 square range when a
king stands on its far back rank.  On the legal position `bC10` (White Kh8
and Pb2 against Black Ka1, White to move) the probe for the white king
computes square indices 70 and 71; `BB_SQUARES[70]` raises IndexError in the
library, so `evaluate_king_safety` and with it `evaluate_board` fail (return
`none`) instead of producing a score. -/
theorem C10_shield_probe_out_of_bounds :
    bC10.pieceAt 63 = some ⟨PieceType.king, Color.white⟩ ∧
    shieldSquares 7 7 Color.white = [70, 71] ∧
    (∀ sq ∈ shieldSquares 7 7 Color.white, ¬ (0 ≤ sq ∧ sq < 64)) ∧
    evaluate_king_safety bC10 Color.white = none ∧
    evaluate_board bC10 = none := by
  refine ⟨by decide, by decide, by decide, by decide, by decide⟩
